import Mathlib

/-!
Verification of `brunnermunzel_from_count_data` (brunnermunzel_from_count_data/__init__.py).

The library computes the Brunner–Munzel two-sample test directly from
count-aggregated data (mappings value → occurrence count) instead of raw
observation arrays.  This file gives a shallow embedding of the three source
functions

  * `join_count_data`   — merge count maps, summing counts per value,
  * `rank_count_data`   — average-rank assignment over a count map,
  * `brunnermunzel_from_count_data` — the statistic / p-value engine,

and proves or refutes the frozen specification claims about them.

Modelling conventions:
  * a Python dict `Mapping[value, count]` is an association list with pairwise
    distinct keys (distinctness is carried as a hypothesis where needed);
  * Python numeric keys (int / float) are `ℚ`, with a separate `Value.nan`
    marker for the float NaN key, since the code treats NaN only via explicit
    `np.isnan` checks;
  * Python ints are `ℤ`; exact float arithmetic is idealised as exact
    arithmetic: the rational part of the pipeline is computed in `ℚ`, and the
    final statistic / p-value live in an arbitrary linear ordered field `R`
    with the square root and the two CDFs (scipy black boxes) passed in as
    uninterpreted functions — every identity proved here therefore holds in
    particular for `ℝ`, `Real.sqrt` and the true CDFs;
  * a raised Python exception is `Except.error`; the float `nan` result is
    `PyFloat.nan`.  `Sx /= nx - 1` is pure-Python `float / int` division, so
    `nx = 1` raises `ZeroDivisionError`; this is modelled by `BMErr.zeroDiv`.
-/

namespace BMCD

/-- Error outcomes (Python exceptions) of the embedded functions. -/
inductive BMErr where
  | negCount : BMErr
  | badPolicy : BMErr
  | nanRaise : BMErr
  | badMethod : BMErr
  | badDist : BMErr
  | badAlt : BMErr
  | zeroDiv : BMErr
deriving DecidableEq

/-- Result component: a Python float that is either NaN or an actual number. -/
inductive PyFloat (R : Type) where
  | nan : PyFloat R
  | val : R → PyFloat R
deriving DecidableEq

instance {ε α : Type} [DecidableEq ε] [DecidableEq α] : DecidableEq (Except ε α)
  | Except.ok a, Except.ok b =>
    if h : a = b then isTrue (by rw [h]) else isFalse (fun hh => h (Except.ok.inj hh))
  | Except.ok _, Except.error _ => isFalse (fun hh => Except.noConfusion hh)
  | Except.error _, Except.ok _ => isFalse (fun hh => Except.noConfusion hh)
  | Except.error e, Except.error f =>
    if h : e = f then isTrue (by rw [h]) else isFalse (fun hh => h (Except.error.inj hh))

/-- Count map with numeric (non-NaN) keys: association list value → count. -/
abbrev QMap := List (ℚ × ℤ)

/-- Keys of a numeric count map. -/
def keysOfQ (m : QMap) : List ℚ := m.map (fun e => e.1)

/-- Python dict lookup `m[v]` for counts (first matching entry; total with
default 0, the code only looks up present keys). -/
def lookupC : QMap → ℚ → ℤ
  | [], _ => 0
  | (k, c) :: t, v => if v = k then c else lookupC t v

/-- Python dict lookup `r[v]` for ranks. -/
def lookupR : List (ℚ × ℚ) → ℚ → ℚ
  | [], _ => 0
  | (k, r) :: t, v => if v = k then r else lookupR t v

/-- Sum of the counts of the entries whose key satisfies `p`. -/
def wCount (p : ℚ → Bool) (m : QMap) : ℤ := (m.map (fun e => if p e.1 then e.2 else 0)).sum

/-- Total count mass at key `v`, summed over every entry with that key. -/
def allC (m : QMap) (v : ℚ) : ℤ := wCount (fun k => decide (v = k)) m

/-- Sum of the counts of the entries with key strictly below `v`. -/
def lowSum (m : QMap) (v : ℚ) : ℤ := wCount (fun k => decide (k < v)) m

/-- Sample size `sum(x.values())` of a numeric count map. -/
def nxQ (m : QMap) : ℤ := (m.map (fun e => e.2)).sum

/-- Count-weighted sum `sum(f(v) * c for v, c in m.items())`. -/
def wSum (m : QMap) (f : ℚ → ℚ) : ℚ := (m.map (fun e => f e.1 * (e.2 : ℚ))).sum

/-- Python `ret[v] = ret.get(v, 0) + c`: update the first entry with key `v`,
or append a fresh entry at the end (dict insertion order). -/
def addEntry : QMap → ℚ → ℤ → QMap
  | [], v, c => [(v, c)]
  | (k, c0) :: t, v, c => if k = v then (k, c0 + c) :: t else (k, c0) :: addEntry t v c

/-- Fold one count map into an accumulator, entry by entry. -/
def joinInto (acc : QMap) (m : QMap) : QMap := m.foldl (fun r e => addEntry r e.1 e.2) acc

/-- Embedding of `join_count_data(*args)`: join count maps into a single count
map, starting from the empty dict. -/
def join_count_data (ms : List QMap) : QMap := ms.foldl joinInto []

/-- Binary join `join_count_data(x, y)` as used by the engine. -/
def join2 (a b : QMap) : QMap := join_count_data [a, b]

/-- Order used by `sorted(list(x.keys()))`, lifted to (key, count) entries. -/
def keyLE (a b : ℚ × ℤ) : Prop := a.1 ≤ b.1

instance : DecidableRel keyLE := fun a b => inferInstanceAs (Decidable (a.1 ≤ b.1))

instance : IsTotal (ℚ × ℤ) keyLE := ⟨fun a b => le_total a.1 b.1⟩

instance : IsTrans (ℚ × ℤ) keyLE := ⟨fun _ _ _ h h2 => le_trans h h2⟩

/-- Strict version of `keyLE`, what sortedness plus key-distinctness give. -/
def keyLT (a b : ℚ × ℤ) : Prop := a.1 < b.1

/-- Entries sorted ascending by key, as `sorted(list(x.keys()))` visits them. -/
def sortByKey (m : QMap) : QMap := m.insertionSort keyLE

/-- Cursor walk of `rank_count_data`: starting at rank `r`, each value `v`
with count `c` receives the midpoint `(r + (r + c - 1)) / 2` of its span
`[r, r + c - 1]`, and the cursor advances by `c`. -/
def rankWalk : ℤ → QMap → List (ℚ × ℚ)
  | _, [] => []
  | r, (v, c) :: t => (v, ((r : ℚ) + ((r : ℚ) + (c : ℚ) - 1)) / 2) :: rankWalk (r + c) t

/-- Rank map produced by `rank_count_data(x)` (method check aside). -/
def rankAvg (m : QMap) : List (ℚ × ℚ) := rankWalk 1 (sortByKey m)

/-- Boolean test whether `l` is an initial segment of `m`. -/
def startsWithCh : List Char → List Char → Bool
  | [], _ => true
  | _ :: _, [] => false
  | a :: l, b :: m => a == b && startsWithCh l m

/-- Boolean test whether `l` occurs contiguously inside `m`: the semantics of
the Python string containment operator. -/
def substrCh (l : List Char) : List Char → Bool
  | [] => l.isEmpty
  | b :: m => startsWithCh l (b :: m) || substrCh l m

/-- Embedding of `rank_count_data(x, method)`.  The source guard is
`if method not in ("average")`: `("average")` is the plain string, so the
check accepts every substring of `"average"`, not just `"average"` itself. -/
def rank_count_data (x : QMap) (method : String) : Except BMErr (List (ℚ × ℚ)) :=
  if substrCh method.toList "average".toList then Except.ok (rankAvg x)
  else Except.error BMErr.badMethod

/-- Count map with every entry keyed by `v` removed: used to state that the
presence of a zero-count entry does not shift the ranks of the other keys. -/
def removeKey (m : QMap) (v : ℚ) : QMap := m.filter (fun e => !(decide (e.1 = v)))

/-- Dict key: a numeric value or the float NaN marker. -/
inductive Value where
  | nan : Value
  | num : ℚ → Value
deriving DecidableEq

/-- Count map as passed to the engine: keys may include the NaN marker. -/
abbrev CountData := List (Value × ℤ)

/-- Keys of a count map. -/
def keysOf (m : CountData) : List Value := m.map (fun e => e.1)

/-- Guard `[c for c in x.values() if c < 0]` being non-empty. -/
def hasNegative (m : CountData) : Bool := m.any (fun e => decide (e.2 < 0))

/-- NaN detection over the keys, as `_contains_nan(np.array(list(x.keys())))`. -/
def containsNan (m : CountData) : Bool := m.any (fun e => decide (e.1 = Value.nan))

/-- Nan-policy `omit` filtering `{v: c for v, c in x.items() if not np.isnan(v)}`. -/
def omitNan (m : CountData) : CountData := m.filter (fun e => !(decide (e.1 = Value.nan)))

/-- View of a NaN-free count map with `ℚ` keys (drops NaN entries; on the
code paths where it is used the map has no NaN keys left). -/
def toQ (m : CountData) : QMap :=
  m.filterMap (fun e => match e.1 with | Value.nan => none | Value.num q => some (q, e.2))

/-- Sample size `sum(list(x.values()))`. -/
def total (m : CountData) : ℤ := (m.map (fun e => e.2)).sum

/-- Expansion of a count map into the raw observation list it aggregates:
each value repeated `count` times. -/
def expandCD (m : CountData) : List Value := (m.map (fun e => List.replicate e.2.toNat e.1)).flatten

/-- Expansion of a numeric count map into its raw observation list. -/
def expandQ (m : QMap) : List ℚ := (m.map (fun e => List.replicate e.2.toNat e.1)).flatten

section Engine

variable {R : Type} [LinearOrderedField R]

/-- Pooled rank map `rank_count_data(join_count_data(x, y))`. -/
def rankcOf (a b : QMap) : List (ℚ × ℚ) := rankAvg (join2 a b)

/-- Pooled-rank mean within the first group, `rankcx_mean`. -/
def mcx (a b : QMap) : ℚ := wSum a (lookupR (rankcOf a b)) / (nxQ a : ℚ)

/-- Pooled-rank mean within the second group, `rankcy_mean`. -/
def mcy (a b : QMap) : ℚ := wSum b (lookupR (rankcOf a b)) / (nxQ b : ℚ)

/-- Within-group rank mean, `rankx_mean` resp. `ranky_mean`. -/
def mw (a : QMap) : ℚ := wSum a (lookupR (rankAvg a)) / (nxQ a : ℚ)

/-- Dispersion estimate `Sx` of the first group (after `Sx /= nx - 1`). -/
def sgX (a b : QMap) : ℚ :=
  wSum a (fun v => (lookupR (rankcOf a b) v - lookupR (rankAvg a) v - mcx a b + mw a) ^ 2) /
    ((nxQ a : ℚ) - 1)

/-- Dispersion estimate `Sy` of the second group. -/
def sgY (a b : QMap) : ℚ :=
  wSum b (fun v => (lookupR (rankcOf a b) v - lookupR (rankAvg b) v - mcy a b + mw b) ^ 2) /
    ((nxQ b : ℚ) - 1)

/-- Numerator `nx * ny * (rankcy_mean - rankcx_mean)` of the W statistic. -/
def poolA (a b : QMap) : ℚ := (nxQ a : ℚ) * (nxQ b : ℚ) * (mcy a b - mcx a b)

/-- Pooled dispersion term `nx * Sx + ny * Sy`. -/
def poolB (a b : QMap) : ℚ := (nxQ a : ℚ) * sgX a b + (nxQ b : ℚ) * sgY a b

/-- Welch–Satterthwaite degrees of freedom `df`. -/
def dfQ (a b : QMap) : ℚ :=
  poolB a b ^ 2 /
    (((nxQ a : ℚ) * sgX a b) ^ 2 / ((nxQ a : ℚ) - 1) +
      ((nxQ b : ℚ) * sgY a b) ^ 2 / ((nxQ b : ℚ) - 1))

/-- W statistic `wbfn = nx*ny*(rankcy_mean - rankcx_mean) / ((nx+ny) * sqrt(nx*Sx + ny*Sy))`,
with the square root `sq` uninterpreted. -/
def statR (sq : R → R) (a b : QMap) : R :=
  ((poolA a b : ℚ) : R) / (((nxQ a + nxQ b : ℤ) : R) * sq ((poolB a b : ℚ) : R))

/-- Final alternative-hypothesis adjustment of the p-value (source lines
`if alternative == "greater": ... else raise`). -/
def altAdjust (alt : String) (s p : R) : Except BMErr (PyFloat R × PyFloat R) :=
  if alt = "greater" then Except.ok (PyFloat.val s, PyFloat.val p)
  else if alt = "less" then Except.ok (PyFloat.val s, PyFloat.val (1 - p))
  else if alt = "two-sided" then Except.ok (PyFloat.val s, PyFloat.val (2 * min p (1 - p)))
  else Except.error BMErr.badAlt

/-- Numeric core of the engine, after negative-count and NaN handling: the
two maps are NaN-free here.  `nx = 0` short-circuits to `(nan, nan)`;
`nx = 1` hits the pure-Python `Sx /= nx - 1` float-by-int-zero division and
raises `ZeroDivisionError` (modelled as `BMErr.zeroDiv`) before the
distribution / alternative validation. -/
def bmCore (sq : R → R) (tc : R → R → R) (nc : R → R) (a b : QMap) (alt dist : String) :
    Except BMErr (PyFloat R × PyFloat R) :=
  if nxQ a = 0 ∨ nxQ b = 0 then Except.ok (PyFloat.nan, PyFloat.nan)
  else if nxQ a = 1 ∨ nxQ b = 1 then Except.error BMErr.zeroDiv
  else if dist = "t" then
    altAdjust alt (statR sq a b) (tc (statR sq a b) ((dfQ a b : ℚ) : R))
  else if dist = "normal" then
    altAdjust alt (statR sq a b) (nc (statR sq a b))
  else Except.error BMErr.badDist

/-- Embedding of `brunnermunzel_from_count_data(x, y, alternative, distribution,
nan_policy)`.  Guard order follows the source: negative counts, then
`_contains_nan` (which validates the policy string and raises under `raise`),
then the `propagate` short-circuit, then `omit` filtering, then the numeric
core. -/
def bm (sq : R → R) (tc : R → R → R) (nc : R → R) (x y : CountData)
    (alt dist pol : String) : Except BMErr (PyFloat R × PyFloat R) :=
  if hasNegative x || hasNegative y then Except.error BMErr.negCount
  else if ¬(pol = "propagate" ∨ pol = "raise" ∨ pol = "omit") then Except.error BMErr.badPolicy
  else if (containsNan x || containsNan y) && decide (pol = "raise") then
    Except.error BMErr.nanRaise
  else if (containsNan x || containsNan y) && decide (pol = "propagate") then
    Except.ok (PyFloat.nan, PyFloat.nan)
  else
    bmCore sq tc nc
      (toQ (if (containsNan x || containsNan y) && decide (pol = "omit") then omitNan x else x))
      (toQ (if (containsNan x || containsNan y) && decide (pol = "omit") then omitNan y else y))
      alt dist

/-- Numeric (non-NaN) observations of a raw array. -/
def numsOf (L : List Value) : List ℚ :=
  L.filterMap (fun v => match v with | Value.nan => none | Value.num q => some q)

/-- NaN detection over the raw observations of an array. -/
def anyNan (L : List Value) : Bool := L.any (fun v => decide (v = Value.nan))

/-- Plain sum `sum(g(u) for u in L)` over an observation list. -/
def sumQ (L : List ℚ) (g : ℚ → ℚ) : ℚ := (L.map g).sum

/-- Modelled from the spec: the classical positional average rank of value `u`
inside the multiset `L` — the mean of the ranks the tied copies of `u` receive
once `L` is sorted, i.e. `#{w < u} + (#{w = u} + 1) / 2`.  This is the tie
handling of `scipy.stats.rankdata(method="average")`, which is not part of
`src/`. -/
def arank (L : List ℚ) (u : ℚ) : ℚ :=
  ((L.countP (fun w => decide (w < u)) : ℕ) : ℚ) +
    (((L.countP (fun w => decide (w = u)) : ℕ) : ℚ) + 1) / 2

/-- Array-side pooled-rank mean of the first sample. -/
def aMcx (X Y : List ℚ) : ℚ := sumQ X (arank (X ++ Y)) / (X.length : ℚ)

/-- Array-side pooled-rank mean of the second sample. -/
def aMcy (X Y : List ℚ) : ℚ := sumQ Y (arank (X ++ Y)) / (Y.length : ℚ)

/-- Array-side within-sample rank mean. -/
def aMw (X : List ℚ) : ℚ := sumQ X (arank X) / (X.length : ℚ)

/-- Array-side dispersion estimate of the first sample. -/
def aSx (X Y : List ℚ) : ℚ :=
  sumQ X (fun u => (arank (X ++ Y) u - arank X u - aMcx X Y + aMw X) ^ 2) / ((X.length : ℚ) - 1)

/-- Array-side dispersion estimate of the second sample. -/
def aSy (X Y : List ℚ) : ℚ :=
  sumQ Y (fun u => (arank (X ++ Y) u - arank Y u - aMcy X Y + aMw Y) ^ 2) / ((Y.length : ℚ) - 1)

/-- Array-side W numerator. -/
def aPoolA (X Y : List ℚ) : ℚ := (X.length : ℚ) * (Y.length : ℚ) * (aMcy X Y - aMcx X Y)

/-- Array-side pooled dispersion term. -/
def aPoolB (X Y : List ℚ) : ℚ := (X.length : ℚ) * aSx X Y + (Y.length : ℚ) * aSy X Y

/-- Array-side degrees of freedom. -/
def aDf (X Y : List ℚ) : ℚ :=
  aPoolB X Y ^ 2 /
    (((X.length : ℚ) * aSx X Y) ^ 2 / ((X.length : ℚ) - 1) +
      ((Y.length : ℚ) * aSy X Y) ^ 2 / ((Y.length : ℚ) - 1))

/-- Array-side W statistic. -/
def aStat (sq : R → R) (X Y : List ℚ) : R :=
  ((aPoolA X Y : ℚ) : R) / ((((X.length + Y.length : ℕ)) : R) * sq ((aPoolB X Y : ℚ) : R))

/-- Modelled from the spec: the standard array-based Brunner–Munzel procedure
(`scipy.stats.brunnermunzel`, not part of `src/`) run on raw observation
arrays, with the same option handling as the count-based engine: NaN policy
first (raise / propagate / omit over the observations), then the zero-size
short-circuit to `(nan, nan)`, then the statistic and p-value with the same
formulas.  The numpy array arithmetic never raises `ZeroDivisionError`, so
there is no `zeroDiv` outcome here. -/
def bmArraySpec (sq : R → R) (tc : R → R → R) (nc : R → R) (X Y : List Value)
    (alt dist pol : String) : Except BMErr (PyFloat R × PyFloat R) :=
  if ¬(pol = "propagate" ∨ pol = "raise" ∨ pol = "omit") then Except.error BMErr.badPolicy
  else if (anyNan X || anyNan Y) && decide (pol = "raise") then Except.error BMErr.nanRaise
  else if (anyNan X || anyNan Y) && decide (pol = "propagate") then
    Except.ok (PyFloat.nan, PyFloat.nan)
  else if (numsOf X).length = 0 ∨ (numsOf Y).length = 0 then
    Except.ok (PyFloat.nan, PyFloat.nan)
  else if dist = "t" then
    altAdjust alt (aStat sq (numsOf X) (numsOf Y))
      (tc (aStat sq (numsOf X) (numsOf Y)) ((aDf (numsOf X) (numsOf Y) : ℚ) : R))
  else if dist = "normal" then
    altAdjust alt (aStat sq (numsOf X) (numsOf Y)) (nc (aStat sq (numsOf X) (numsOf Y)))
  else Except.error BMErr.badDist

end Engine

/-! ## Basic lemmas about count-map primitives -/

theorem keysOfQ_nil : keysOfQ [] = [] := rfl

theorem keysOfQ_cons (e : ℚ × ℤ) (t : QMap) : keysOfQ (e :: t) = e.1 :: keysOfQ t := rfl

theorem keysOfQ_append (a b : QMap) : keysOfQ (a ++ b) = keysOfQ a ++ keysOfQ b := by
  simp [keysOfQ]

theorem wCount_nil (p : ℚ → Bool) : wCount p [] = 0 := rfl

theorem wCount_cons (p : ℚ → Bool) (e : ℚ × ℤ) (t : QMap) :
    wCount p (e :: t) = (if p e.1 then e.2 else 0) + wCount p t := by
  simp [wCount]

theorem wCount_append (p : ℚ → Bool) (a b : QMap) :
    wCount p (a ++ b) = wCount p a + wCount p b := by
  simp [wCount]

theorem wCount_eq_zero (p : ℚ → Bool) (m : QMap) (h : ∀ e ∈ m, p e.1 = false) :
    wCount p m = 0 := by
  induction m with
  | nil => rfl
  | cons e t ih =>
    rw [wCount_cons, h e (List.mem_cons_self e t), ih (fun e he => h e (List.mem_cons_of_mem _ he))]
    simp

theorem nxQ_nil : nxQ [] = 0 := rfl

theorem nxQ_cons (e : ℚ × ℤ) (t : QMap) : nxQ (e :: t) = e.2 + nxQ t := by
  simp [nxQ]

theorem nxQ_append (a b : QMap) : nxQ (a ++ b) = nxQ a + nxQ b := by
  simp [nxQ]

theorem wSum_nil (f : ℚ → ℚ) : wSum [] f = 0 := rfl

theorem wSum_cons (e : ℚ × ℤ) (t : QMap) (f : ℚ → ℚ) :
    wSum (e :: t) f = f e.1 * (e.2 : ℚ) + wSum t f := by
  simp [wSum]

theorem wSum_append (a b : QMap) (f : ℚ → ℚ) : wSum (a ++ b) f = wSum a f + wSum b f := by
  simp [wSum]

theorem wSum_congr_keys (m : QMap) (f g : ℚ → ℚ) (h : ∀ v ∈ keysOfQ m, f v = g v) :
    wSum m f = wSum m g := by
  induction m with
  | nil => rfl
  | cons e t ih =>
    rw [wSum_cons, wSum_cons, h e.1 (by simp [keysOfQ_cons]),
      ih (fun v hv => h v (by simp [keysOfQ_cons, hv]))]

theorem lookupC_nil (v : ℚ) : lookupC [] v = 0 := rfl

theorem lookupC_cons_self (k : ℚ) (c : ℤ) (t : QMap) : lookupC ((k, c) :: t) k = c := by
  simp [lookupC]

theorem lookupC_cons_ne (k : ℚ) (c : ℤ) (t : QMap) (v : ℚ) (h : v ≠ k) :
    lookupC ((k, c) :: t) v = lookupC t v := by
  simp [lookupC, h]

theorem lookupC_mem (m : QMap) (v : ℚ) (h : v ∈ keysOfQ m) : (v, lookupC m v) ∈ m := by
  induction m with
  | nil => simp [keysOfQ_nil] at h
  | cons e t ih =>
    obtain ⟨k, c⟩ := e
    by_cases hv : v = k
    · subst hv
      simp [lookupC_cons_self]
    · rw [keysOfQ_cons] at h
      rcases List.mem_cons.mp h with h1 | h2
      · exact absurd h1 hv
      · rw [lookupC_cons_ne k c t v hv]
        exact List.mem_cons_of_mem _ (ih h2)

theorem lookupC_append_left (a b : QMap) (v : ℚ) (h : v ∈ keysOfQ a) :
    lookupC (a ++ b) v = lookupC a v := by
  induction a with
  | nil => simp [keysOfQ_nil] at h
  | cons e t ih =>
    obtain ⟨k, c⟩ := e
    by_cases hv : v = k
    · subst hv
      simp [lookupC_cons_self, List.cons_append, lookupC]
    · rw [keysOfQ_cons] at h
      rcases List.mem_cons.mp h with h1 | h2
      · exact absurd h1 hv
      · rw [List.cons_append, lookupC_cons_ne k c _ v hv, lookupC_cons_ne k c t v hv]
        exact ih h2

theorem lookupR_cons_self (k r : ℚ) (t : List (ℚ × ℚ)) : lookupR ((k, r) :: t) k = r := by
  simp [lookupR]

theorem lookupR_cons_ne (k r : ℚ) (t : List (ℚ × ℚ)) (v : ℚ) (h : v ≠ k) :
    lookupR ((k, r) :: t) v = lookupR t v := by
  simp [lookupR, h]

theorem allC_eq_zero_of_not_mem (m : QMap) (v : ℚ) (h : v ∉ keysOfQ m) : allC m v = 0 := by
  refine wCount_eq_zero _ m (fun e he => ?_)
  have : e.1 ∈ keysOfQ m := List.mem_map_of_mem _ he
  have hne : v ≠ e.1 := fun hv => h (hv ▸ this)
  simp [hne]

theorem allC_cons (m : QMap) (e : ℚ × ℤ) (v : ℚ) :
    allC (e :: m) v = (if v = e.1 then e.2 else 0) + allC m v := by
  rw [allC, wCount_cons]
  by_cases h : v = e.1 <;> simp [allC, h]

theorem allC_append (a b : QMap) (v : ℚ) : allC (a ++ b) v = allC a v + allC b v :=
  wCount_append _ a b

theorem allC_eq_lookupC (m : QMap) (v : ℚ) (hnd : (keysOfQ m).Nodup) :
    allC m v = lookupC m v := by
  induction m with
  | nil => rfl
  | cons e t ih =>
    obtain ⟨k, c⟩ := e
    rw [keysOfQ_cons] at hnd
    rcases List.nodup_cons.mp hnd with ⟨hk, ht⟩
    by_cases hv : v = k
    · subst hv
      rw [allC_cons, lookupC_cons_self]
      simp [allC_eq_zero_of_not_mem t v hk]
    · rw [allC_cons, lookupC_cons_ne k c t v hv, ih ht]
      simp [hv]

/-! ## Lemmas about `addEntry`, `joinInto`, `join2` -/

theorem wCount_addEntry (p : ℚ → Bool) (m : QMap) (v : ℚ) (c : ℤ) :
    wCount p (addEntry m v c) = wCount p m + (if p v then c else 0) := by
  induction m with
  | nil => by_cases hp : p v <;> simp [addEntry, wCount, hp]
  | cons e t ih =>
    obtain ⟨k, c0⟩ := e
    by_cases h : k = v
    · subst h
      by_cases hp : p k <;> simp [addEntry, wCount_cons, hp] <;> ring
    · by_cases hp : p k <;> simp [addEntry, h, wCount_cons, hp, ih] <;> ring

theorem lookupC_addEntry (m : QMap) (k v : ℚ) (c : ℤ) :
    lookupC (addEntry m k c) v = lookupC m v + (if v = k then c else 0) := by
  induction m with
  | nil => by_cases h : v = k <;> simp [addEntry, lookupC, h]
  | cons e t ih =>
    obtain ⟨k0, c0⟩ := e
    by_cases h0 : k0 = k
    · subst h0
      by_cases h : v = k0 <;> simp [addEntry, lookupC, h]
    · by_cases h : v = k0
      · have hvk : ¬v = k := fun hvk0 => h0 (h.symm.trans hvk0)
        simp [addEntry, h0, lookupC, h, hvk]
      · simp [addEntry, h0, lookupC, h, ih]

theorem mem_keysOfQ_addEntry (m : QMap) (k v : ℚ) (c : ℤ) :
    v ∈ keysOfQ (addEntry m k c) ↔ v ∈ keysOfQ m ∨ v = k := by
  induction m with
  | nil => simp [addEntry, keysOfQ]
  | cons e t ih =>
    obtain ⟨k0, c0⟩ := e
    by_cases h0 : k0 = k
    · subst h0
      simp [addEntry, keysOfQ_cons]
      tauto
    · simp [addEntry, h0, keysOfQ_cons, ih]
      tauto

theorem nodup_keysOfQ_addEntry (m : QMap) (k : ℚ) (c : ℤ) (h : (keysOfQ m).Nodup) :
    (keysOfQ (addEntry m k c)).Nodup := by
  induction m with
  | nil => simp [addEntry, keysOfQ]
  | cons e t ih =>
    obtain ⟨k0, c0⟩ := e
    rw [keysOfQ_cons] at h
    rcases List.nodup_cons.mp h with ⟨hk0, ht⟩
    by_cases h0 : k0 = k
    · subst h0
      have hstep : addEntry ((k0, c0) :: t) k0 c = (k0, c0 + c) :: t := by
        rw [addEntry]; simp
      rw [hstep, keysOfQ_cons]
      exact List.nodup_cons.mpr ⟨hk0, ht⟩
    · have hstep : addEntry ((k0, c0) :: t) k c = (k0, c0) :: addEntry t k c := by
        rw [addEntry]; simp [h0]
      rw [hstep, keysOfQ_cons]
      refine List.nodup_cons.mpr ⟨?_, ih ht⟩
      rw [mem_keysOfQ_addEntry]
      rintro (hmem | heq)
      · exact hk0 hmem
      · exact h0 heq

theorem joinInto_nil (acc : QMap) : joinInto acc [] = acc := rfl

theorem joinInto_cons (acc : QMap) (e : ℚ × ℤ) (t : QMap) :
    joinInto acc (e :: t) = joinInto (addEntry acc e.1 e.2) t := rfl

theorem lookupC_joinInto (m : QMap) : ∀ (acc : QMap) (v : ℚ),
    lookupC (joinInto acc m) v = lookupC acc v + allC m v := by
  induction m with
  | nil => intro acc v; simp [joinInto_nil, allC, wCount]
  | cons e t ih =>
    intro acc v
    rw [joinInto_cons, ih, lookupC_addEntry, allC_cons]
    ring

theorem wCount_joinInto (p : ℚ → Bool) (m : QMap) : ∀ acc : QMap,
    wCount p (joinInto acc m) = wCount p acc + wCount p m := by
  induction m with
  | nil => intro acc; simp [joinInto_nil, wCount_nil]
  | cons e t ih =>
    intro acc
    rw [joinInto_cons, ih, wCount_addEntry, wCount_cons]
    ring

theorem mem_keysOfQ_joinInto (m : QMap) : ∀ (acc : QMap) (v : ℚ),
    v ∈ keysOfQ (joinInto acc m) ↔ v ∈ keysOfQ acc ∨ v ∈ keysOfQ m := by
  induction m with
  | nil => intro acc v; simp [joinInto_nil, keysOfQ_nil]
  | cons e t ih =>
    intro acc v
    rw [joinInto_cons, ih, mem_keysOfQ_addEntry, keysOfQ_cons]
    simp
    tauto

theorem nodup_keysOfQ_joinInto (m : QMap) : ∀ acc : QMap,
    (keysOfQ acc).Nodup → (keysOfQ (joinInto acc m)).Nodup := by
  induction m with
  | nil => intro acc h; exact h
  | cons e t ih =>
    intro acc h
    rw [joinInto_cons]
    exact ih _ (nodup_keysOfQ_addEntry acc e.1 e.2 h)

theorem join2_eq (a b : QMap) : join2 a b = joinInto (joinInto [] a) b := rfl

theorem lookupC_join2 (a b : QMap) (v : ℚ) : lookupC (join2 a b) v = allC a v + allC b v := by
  rw [join2_eq, lookupC_joinInto, lookupC_joinInto, lookupC_nil]
  ring

theorem wCount_join2 (p : ℚ → Bool) (a b : QMap) :
    wCount p (join2 a b) = wCount p a + wCount p b := by
  rw [join2_eq, wCount_joinInto, wCount_joinInto, wCount_nil]
  ring

theorem lowSum_join2 (a b : QMap) (v : ℚ) : lowSum (join2 a b) v = lowSum a v + lowSum b v :=
  wCount_join2 _ a b

theorem mem_keysOfQ_join2 (a b : QMap) (v : ℚ) :
    v ∈ keysOfQ (join2 a b) ↔ v ∈ keysOfQ a ∨ v ∈ keysOfQ b := by
  rw [join2_eq, mem_keysOfQ_joinInto, mem_keysOfQ_joinInto, keysOfQ_nil]
  simp

theorem nodup_keysOfQ_join2 (a b : QMap) : (keysOfQ (join2 a b)).Nodup := by
  rw [join2_eq]
  exact nodup_keysOfQ_joinInto b _ (nodup_keysOfQ_joinInto a [] (by simp [keysOfQ_nil]))

/-! ## Sorting and the closed form of the rank map -/

theorem sortByKey_perm (m : QMap) : (sortByKey m).Perm m := List.perm_insertionSort keyLE m

theorem wCount_of_perm {a b : QMap} (h : a.Perm b) (p : ℚ → Bool) :
    wCount p a = wCount p b := List.Perm.sum_eq (h.map _)

theorem nxQ_of_perm {a b : QMap} (h : a.Perm b) : nxQ a = nxQ b := List.Perm.sum_eq (h.map _)

theorem wSum_of_perm {a b : QMap} (h : a.Perm b) (f : ℚ → ℚ) :
    wSum a f = wSum b f := List.Perm.sum_eq (h.map _)

theorem sortByKey_sorted (m : QMap) : List.Pairwise keyLE (sortByKey m) :=
  List.sorted_insertionSort keyLE m

theorem sortByKey_strict (m : QMap) (hnd : (keysOfQ m).Nodup) :
    List.Pairwise keyLT (sortByKey m) := by
  have hp : List.Pairwise keyLE (sortByKey m) := sortByKey_sorted m
  have hnd2 : (keysOfQ (sortByKey m)).Nodup := by
    have hperm : (keysOfQ (sortByKey m)).Perm (keysOfQ m) := (sortByKey_perm m).map _
    exact hperm.nodup_iff.mpr hnd
  have hne : List.Pairwise (fun a b : ℚ × ℤ => a.1 ≠ b.1) (sortByKey m) :=
    List.pairwise_map.mp hnd2
  exact (List.pairwise_and_iff.mpr ⟨hp, hne⟩).imp (fun hab => lt_of_le_of_ne hab.1 hab.2)

theorem rankWalk_nil (r : ℤ) : rankWalk r [] = [] := rfl

theorem rankWalk_cons (r : ℤ) (v : ℚ) (c : ℤ) (t : QMap) :
    rankWalk r ((v, c) :: t) =
      (v, ((r : ℚ) + ((r : ℚ) + (c : ℚ) - 1)) / 2) :: rankWalk (r + c) t := rfl

theorem lookupR_rankWalk : ∀ (s : QMap) (r : ℤ), List.Pairwise keyLT s → ∀ (v : ℚ) (c : ℤ),
    (v, c) ∈ s →
    lookupR (rankWalk r s) v = (r : ℚ) + (lowSum s v : ℚ) + ((c : ℚ) - 1) / 2 := by
  intro s
  induction s with
  | nil => intro r _ v c hm; cases hm
  | cons e t ih =>
    intro r hs v c hm
    obtain ⟨w, cw⟩ := e
    rcases List.pairwise_cons.mp hs with ⟨hw, hs'⟩
    rcases List.mem_cons.mp hm with he | ht
    · injection he with hv hc
      subst hv
      subst hc
      rw [rankWalk_cons, lookupR_cons_self]
      have hlow : lowSum ((v, c) :: t) v = 0 := by
        rw [lowSum, wCount_cons]
        have htail : wCount (fun k => decide (k < v)) t = 0 := by
          refine wCount_eq_zero _ t (fun e he => ?_)
          have : v < e.1 := hw e he
          simp [not_lt_of_gt this]
        simp [htail]
      rw [hlow]
      push_cast
      ring
    · have hwv : w < v := by
        have := hw (v, c) ht
        exact this
      have hvw : v ≠ w := ne_of_gt hwv
      rw [rankWalk_cons, lookupR_cons_ne _ _ _ _ hvw, ih (r + cw) hs' v c ht]
      have hlow : lowSum ((w, cw) :: t) v = cw + lowSum t v := by
        rw [lowSum, wCount_cons]
        simp [hwv, lowSum]
      rw [hlow]
      push_cast
      ring

theorem lookupR_rankAvg (m : QMap) (hnd : (keysOfQ m).Nodup) (v : ℚ) (c : ℤ)
    (hm : (v, c) ∈ m) :
    lookupR (rankAvg m) v = 1 + (lowSum m v : ℚ) + ((c : ℚ) - 1) / 2 := by
  have hperm := sortByKey_perm m
  have hs := sortByKey_strict m hnd
  have hm2 : (v, c) ∈ sortByKey m := hperm.mem_iff.mpr hm
  have hmain := lookupR_rankWalk (sortByKey m) 1 hs v c hm2
  have hlow : lowSum (sortByKey m) v = lowSum m v := wCount_of_perm hperm _
  rw [rankAvg]
  rw [hmain, hlow]
  norm_num

theorem lookupR_rankAvg_keys (m : QMap) (hnd : (keysOfQ m).Nodup) (v : ℚ)
    (hv : v ∈ keysOfQ m) :
    lookupR (rankAvg m) v = 1 + (lowSum m v : ℚ) + ((lookupC m v : ℚ) - 1) / 2 :=
  lookupR_rankAvg m hnd v _ (lookupC_mem m v hv)

theorem lookupR_rankAvg_congr (m m2 : QMap) (hnd : (keysOfQ m).Nodup)
    (hnd2 : (keysOfQ m2).Nodup) (v : ℚ) (hv : v ∈ keysOfQ m) (hv2 : v ∈ keysOfQ m2)
    (hlow : lowSum m v = lowSum m2 v) (hc : lookupC m v = lookupC m2 v) :
    lookupR (rankAvg m) v = lookupR (rankAvg m2) v := by
  rw [lookupR_rankAvg_keys m hnd v hv, lookupR_rankAvg_keys m2 hnd2 v hv2, hlow, hc]

theorem wSum_rankWalk : ∀ (s : QMap) (r : ℤ), List.Pairwise keyLT s →
    wSum s (lookupR (rankWalk r s)) = (nxQ s : ℚ) * (2 * (r : ℚ) + (nxQ s : ℚ) - 1) / 2 := by
  intro s
  induction s with
  | nil => intro r _; simp [wSum_nil, nxQ_nil]
  | cons e t ih =>
    intro r hs
    obtain ⟨w, cw⟩ := e
    rcases List.pairwise_cons.mp hs with ⟨hw, hs'⟩
    rw [wSum_cons, rankWalk_cons, lookupR_cons_self]
    have htail : wSum t (lookupR ((w, ((r : ℚ) + ((r : ℚ) + (cw : ℚ) - 1)) / 2) ::
        rankWalk (r + cw) t)) = wSum t (lookupR (rankWalk (r + cw) t)) := by
      refine wSum_congr_keys t _ _ (fun v hv => ?_)
      obtain ⟨⟨v0, c0⟩, hmem, hfst⟩ := List.mem_map.mp hv
      have hne : v ≠ w := by
        have h2 : w < v0 := hw (v0, c0) hmem
        have h3 : v0 = v := hfst
        exact ne_of_gt (h3 ▸ h2)
      exact lookupR_cons_ne _ _ _ _ hne
    rw [htail, ih (r + cw) hs', nxQ_cons]
    push_cast
    ring

theorem wSum_rankAvg_total (m : QMap) (hnd : (keysOfQ m).Nodup) :
    wSum m (lookupR (rankAvg m)) = (nxQ m : ℚ) * ((nxQ m : ℚ) + 1) / 2 := by
  have hperm := sortByKey_perm m
  have hs := sortByKey_strict m hnd
  have h1 : wSum m (lookupR (rankAvg m)) = wSum (sortByKey m) (lookupR (rankAvg m)) :=
    (wSum_of_perm hperm _).symm
  have h2 := wSum_rankWalk (sortByKey m) 1 hs
  rw [h1, rankAvg, h2, nxQ_of_perm hperm]
  push_cast
  ring

/-! ## Argument-swap symmetry of the engine components -/

theorem lookupR_join2_swap (a b : QMap) (v : ℚ) (hv : v ∈ keysOfQ (join2 a b)) :
    lookupR (rankAvg (join2 b a)) v = lookupR (rankAvg (join2 a b)) v := by
  refine lookupR_rankAvg_congr _ _ (nodup_keysOfQ_join2 b a) (nodup_keysOfQ_join2 a b)
    v ?_ hv ?_ ?_
  · rw [mem_keysOfQ_join2] at hv ⊢
    tauto
  · rw [lowSum_join2, lowSum_join2]
    ring
  · rw [lookupC_join2, lookupC_join2]
    ring

theorem mcx_swap (a b : QMap) : mcx b a = mcy a b := by
  rw [mcx, mcy]
  congr 1
  simp only [rankcOf]
  refine wSum_congr_keys b _ _ (fun v hv => ?_)
  exact lookupR_join2_swap a b v ((mem_keysOfQ_join2 a b v).mpr (Or.inr hv))

theorem mcy_swap (a b : QMap) : mcy b a = mcx a b := by
  rw [mcy, mcx]
  congr 1
  simp only [rankcOf]
  refine wSum_congr_keys a _ _ (fun v hv => ?_)
  exact lookupR_join2_swap a b v ((mem_keysOfQ_join2 a b v).mpr (Or.inl hv))

theorem sgX_swap (a b : QMap) : sgX b a = sgY a b := by
  rw [sgX, sgY, mcx_swap]
  congr 1
  simp only [rankcOf]
  refine wSum_congr_keys b _ _ (fun v hv => ?_)
  rw [lookupR_join2_swap a b v ((mem_keysOfQ_join2 a b v).mpr (Or.inr hv))]

theorem sgY_swap (a b : QMap) : sgY b a = sgX a b := by
  rw [sgY, sgX, mcy_swap]
  congr 1
  simp only [rankcOf]
  refine wSum_congr_keys a _ _ (fun v hv => ?_)
  rw [lookupR_join2_swap a b v ((mem_keysOfQ_join2 a b v).mpr (Or.inl hv))]

theorem poolA_swap (a b : QMap) : poolA b a = -poolA a b := by
  rw [poolA, poolA, mcx_swap, mcy_swap]
  ring

theorem poolB_swap (a b : QMap) : poolB b a = poolB a b := by
  rw [poolB, poolB, sgX_swap a b, sgY_swap a b]
  ring

theorem dfQ_swap (a b : QMap) : dfQ b a = dfQ a b := by
  rw [dfQ, dfQ, poolB_swap a b, sgX_swap a b, sgY_swap a b]
  ring

theorem statR_swap {R : Type} [LinearOrderedField R] (sq : R → R) (a b : QMap) :
    statR sq b a = -statR sq a b := by
  rw [statR, statR, poolA_swap, poolB_swap, add_comm (nxQ b) (nxQ a)]
  push_cast
  ring

/-! ## Inertness of appended zero-count entries, component by component -/

theorem lowSum_appendzero (a : QMap) (q v : ℚ) : lowSum (a ++ [(q, 0)]) v = lowSum a v := by
  rw [lowSum, wCount_append]
  simp [wCount, lowSum]

theorem allC_appendzero (a : QMap) (q v : ℚ) : allC (a ++ [(q, 0)]) v = allC a v := by
  rw [allC_append]
  simp [allC, wCount]

theorem nxQ_appendzero (a : QMap) (q : ℚ) : nxQ (a ++ [(q, 0)]) = nxQ a := by
  rw [nxQ_append]
  simp [nxQ]

theorem wSum_appendzero (a : QMap) (q : ℚ) (f : ℚ → ℚ) :
    wSum (a ++ [(q, 0)]) f = wSum a f := by
  rw [wSum_append]
  simp [wSum]

theorem lookupR_join2_appendzero_left (a b : QMap) (q v : ℚ)
    (hv : v ∈ keysOfQ (join2 a b)) :
    lookupR (rankAvg (join2 (a ++ [(q, 0)]) b)) v = lookupR (rankAvg (join2 a b)) v := by
  refine lookupR_rankAvg_congr _ _ (nodup_keysOfQ_join2 _ b) (nodup_keysOfQ_join2 a b)
    v ?_ hv ?_ ?_
  · rw [mem_keysOfQ_join2] at hv ⊢
    rcases hv with h | h
    · exact Or.inl (by rw [keysOfQ_append]; exact List.mem_append_left _ h)
    · exact Or.inr h
  · rw [lowSum_join2, lowSum_join2, lowSum_appendzero]
  · rw [lookupC_join2, lookupC_join2, allC_appendzero]

theorem nodup_keysOfQ_appendzero (a : QMap) (hnd : (keysOfQ a).Nodup) (q : ℚ)
    (hq : q ∉ keysOfQ a) : (keysOfQ (a ++ [(q, 0)])).Nodup := by
  rw [keysOfQ_append]
  refine List.Nodup.append hnd (by simp [keysOfQ]) ?_
  intro x hx hx2
  have hxq : x = q := by simpa [keysOfQ] using hx2
  exact hq (hxq ▸ hx)

theorem lookupR_rankAvg_appendzero (a : QMap) (hnd : (keysOfQ a).Nodup) (q : ℚ)
    (hq : q ∉ keysOfQ a) (v : ℚ) (hv : v ∈ keysOfQ a) :
    lookupR (rankAvg (a ++ [(q, 0)])) v = lookupR (rankAvg a) v := by
  refine lookupR_rankAvg_congr _ _ (nodup_keysOfQ_appendzero a hnd q hq) hnd v ?_ hv ?_ ?_
  · rw [keysOfQ_append]
    exact List.mem_append_left _ hv
  · exact lowSum_appendzero a q v
  · exact lookupC_append_left a _ v hv

theorem mcx_appendzero_left (a b : QMap) (q : ℚ) : mcx (a ++ [(q, 0)]) b = mcx a b := by
  rw [mcx, mcx, nxQ_appendzero, wSum_appendzero]
  congr 1
  simp only [rankcOf]
  refine wSum_congr_keys a _ _ (fun v hv => ?_)
  exact lookupR_join2_appendzero_left a b q v ((mem_keysOfQ_join2 a b v).mpr (Or.inl hv))

theorem mcy_appendzero_left (a b : QMap) (q : ℚ) : mcy (a ++ [(q, 0)]) b = mcy a b := by
  rw [mcy, mcy]
  congr 1
  simp only [rankcOf]
  refine wSum_congr_keys b _ _ (fun v hv => ?_)
  exact lookupR_join2_appendzero_left a b q v ((mem_keysOfQ_join2 a b v).mpr (Or.inr hv))

theorem mw_appendzero (a : QMap) (hnd : (keysOfQ a).Nodup) (q : ℚ) (hq : q ∉ keysOfQ a) :
    mw (a ++ [(q, 0)]) = mw a := by
  rw [mw, mw, nxQ_appendzero, wSum_appendzero]
  congr 1
  exact wSum_congr_keys a _ _ (fun v hv => lookupR_rankAvg_appendzero a hnd q hq v hv)

theorem sgX_appendzero_left (a b : QMap) (hnd : (keysOfQ a).Nodup) (q : ℚ)
    (hq : q ∉ keysOfQ a) : sgX (a ++ [(q, 0)]) b = sgX a b := by
  rw [sgX, sgX, nxQ_appendzero, wSum_appendzero, mcx_appendzero_left,
    mw_appendzero a hnd q hq]
  congr 1
  simp only [rankcOf]
  refine wSum_congr_keys a _ _ (fun v hv => ?_)
  rw [lookupR_join2_appendzero_left a b q v ((mem_keysOfQ_join2 a b v).mpr (Or.inl hv)),
    lookupR_rankAvg_appendzero a hnd q hq v hv]

theorem sgY_appendzero_left (a b : QMap) (q : ℚ) : sgY (a ++ [(q, 0)]) b = sgY a b := by
  rw [sgY, sgY, mcy_appendzero_left]
  congr 1
  simp only [rankcOf]
  refine wSum_congr_keys b _ _ (fun v hv => ?_)
  rw [lookupR_join2_appendzero_left a b q v ((mem_keysOfQ_join2 a b v).mpr (Or.inr hv))]

theorem poolA_appendzero_left (a b : QMap) (q : ℚ) :
    poolA (a ++ [(q, 0)]) b = poolA a b := by
  rw [poolA, poolA, nxQ_appendzero, mcx_appendzero_left, mcy_appendzero_left]

theorem poolB_appendzero_left (a b : QMap) (hnd : (keysOfQ a).Nodup) (q : ℚ)
    (hq : q ∉ keysOfQ a) : poolB (a ++ [(q, 0)]) b = poolB a b := by
  rw [poolB, poolB, nxQ_appendzero, sgX_appendzero_left a b hnd q hq, sgY_appendzero_left]

theorem dfQ_appendzero_left (a b : QMap) (hnd : (keysOfQ a).Nodup) (q : ℚ)
    (hq : q ∉ keysOfQ a) : dfQ (a ++ [(q, 0)]) b = dfQ a b := by
  rw [dfQ, dfQ, nxQ_appendzero, sgX_appendzero_left a b hnd q hq, sgY_appendzero_left,
    poolB_appendzero_left a b hnd q hq]

theorem statR_appendzero_left {R : Type} [LinearOrderedField R] (sq : R → R) (a b : QMap)
    (hnd : (keysOfQ a).Nodup) (q : ℚ) (hq : q ∉ keysOfQ a) :
    statR sq (a ++ [(q, 0)]) b = statR sq a b := by
  rw [statR, statR, nxQ_appendzero, poolA_appendzero_left, poolB_appendzero_left a b hnd q hq]

theorem poolA_appendzero_right (a b : QMap) (q : ℚ) :
    poolA a (b ++ [(q, 0)]) = poolA a b := by
  rw [poolA_swap (b ++ [(q, 0)]) a, poolA_appendzero_left b a q, poolA_swap a b]
  ring

theorem poolB_appendzero_right (a b : QMap) (hnd : (keysOfQ b).Nodup) (q : ℚ)
    (hq : q ∉ keysOfQ b) : poolB a (b ++ [(q, 0)]) = poolB a b := by
  rw [poolB_swap (b ++ [(q, 0)]) a, poolB_appendzero_left b a hnd q hq]
  exact poolB_swap a b

theorem dfQ_appendzero_right (a b : QMap) (hnd : (keysOfQ b).Nodup) (q : ℚ)
    (hq : q ∉ keysOfQ b) : dfQ a (b ++ [(q, 0)]) = dfQ a b := by
  rw [dfQ_swap (b ++ [(q, 0)]) a, dfQ_appendzero_left b a hnd q hq]
  exact dfQ_swap a b

theorem statR_appendzero_right {R : Type} [LinearOrderedField R] (sq : R → R) (a b : QMap)
    (hnd : (keysOfQ b).Nodup) (q : ℚ) (hq : q ∉ keysOfQ b) :
    statR sq a (b ++ [(q, 0)]) = statR sq a b := by
  rw [statR_swap sq (b ++ [(q, 0)]) a, statR_appendzero_left sq b a hnd q hq,
    statR_swap sq a b]
  ring

/-! ## Value-level helper lemmas -/

theorem keysOf_cons (e : Value × ℤ) (t : CountData) : keysOf (e :: t) = e.1 :: keysOf t := rfl

theorem toQ_nil : toQ [] = [] := rfl

theorem toQ_cons_nan (c : ℤ) (t : CountData) : toQ ((Value.nan, c) :: t) = toQ t := by
  simp [toQ]

theorem toQ_cons_num (q : ℚ) (c : ℤ) (t : CountData) :
    toQ ((Value.num q, c) :: t) = (q, c) :: toQ t := by
  simp [toQ]

theorem toQ_append (a b : CountData) : toQ (a ++ b) = toQ a ++ toQ b := by
  simp [toQ]

theorem total_cons (e : Value × ℤ) (t : CountData) : total (e :: t) = e.2 + total t := by
  simp [total]

theorem omitNan_append (a b : CountData) : omitNan (a ++ b) = omitNan a ++ omitNan b := by
  simp [omitNan]

theorem omitNan_eq_self (m : CountData) (h : containsNan m = false) : omitNan m = m := by
  rw [omitNan, List.filter_eq_self]
  intro e he
  simp only [containsNan, List.any_eq_false] at h
  simpa using h e he

theorem containsNan_omitNan (m : CountData) : containsNan (omitNan m) = false := by
  simp only [containsNan, omitNan, List.any_eq_false]
  intro e he
  rcases List.mem_filter.mp he with ⟨_, hp⟩
  simpa using hp

theorem nxQ_toQ (m : CountData) (h : containsNan m = false) : nxQ (toQ m) = total m := by
  induction m with
  | nil => rfl
  | cons e t ih =>
    obtain ⟨v, c⟩ := e
    rw [containsNan] at h
    simp only [List.any_cons, Bool.or_eq_false_iff] at h
    rcases h with ⟨hv, ht⟩
    cases v with
    | nan => simp at hv
    | num q =>
      rw [toQ_cons_num, nxQ_cons, total_cons, ih ht]

theorem mem_keysOfQ_toQ (m : CountData) (q : ℚ) :
    q ∈ keysOfQ (toQ m) ↔ Value.num q ∈ keysOf m := by
  induction m with
  | nil => simp [toQ_nil, keysOfQ_nil, keysOf]
  | cons e t ih =>
    obtain ⟨v, c⟩ := e
    cases v with
    | nan =>
      rw [toQ_cons_nan, keysOf_cons, ih]
      simp
    | num q0 =>
      rw [toQ_cons_num, keysOfQ_cons, keysOf_cons]
      simp only [List.mem_cons, ih, Value.num.injEq]

theorem nodup_keysOfQ_toQ (m : CountData) (h : (keysOf m).Nodup) :
    (keysOfQ (toQ m)).Nodup := by
  induction m with
  | nil => simp [toQ_nil, keysOfQ_nil]
  | cons e t ih =>
    obtain ⟨v, c⟩ := e
    rw [keysOf_cons] at h
    rcases List.nodup_cons.mp h with ⟨hv, ht⟩
    cases v with
    | nan => rw [toQ_cons_nan]; exact ih ht
    | num q0 =>
      rw [toQ_cons_num, keysOfQ_cons]
      refine List.nodup_cons.mpr ⟨?_, ih ht⟩
      intro hmem
      exact hv ((mem_keysOfQ_toQ t q0).mp hmem)

theorem mem_keysOf_omitNan (m : CountData) (v : Value) (h : v ∈ keysOf (omitNan m)) :
    v ∈ keysOf m :=
  ((List.filter_sublist m).map (fun e => e.1)).subset h

theorem nodup_keysOf_omitNan (m : CountData) (h : (keysOf m).Nodup) :
    (keysOf (omitNan m)).Nodup := by
  have hsub : (keysOf (omitNan m)).Sublist (keysOf m) := by
    simp only [keysOf, omitNan]
    exact (List.filter_sublist m).map (fun e => e.1)
  exact List.Nodup.sublist hsub h

/-! ## Zero-count entries are inert in `bmCore` and `bm` -/

theorem bmCore_appendzero_left {R : Type} [LinearOrderedField R] (sq : R → R)
    (tc : R → R → R) (nc : R → R) (a b : QMap) (hnd : (keysOfQ a).Nodup) (q : ℚ)
    (hq : q ∉ keysOfQ a) (alt dist : String) :
    bmCore sq tc nc (a ++ [(q, 0)]) b alt dist = bmCore sq tc nc a b alt dist := by
  simp only [bmCore, nxQ_appendzero, statR_appendzero_left sq a b hnd q hq,
    dfQ_appendzero_left a b hnd q hq]

theorem bmCore_appendzero_right {R : Type} [LinearOrderedField R] (sq : R → R)
    (tc : R → R → R) (nc : R → R) (a b : QMap) (hnd : (keysOfQ b).Nodup) (q : ℚ)
    (hq : q ∉ keysOfQ b) (alt dist : String) :
    bmCore sq tc nc a (b ++ [(q, 0)]) alt dist = bmCore sq tc nc a b alt dist := by
  simp only [bmCore, nxQ_appendzero, statR_appendzero_right sq a b hnd q hq,
    dfQ_appendzero_right a b hnd q hq]

theorem bm_appendzero_left {R : Type} [LinearOrderedField R] (sq : R → R) (tc : R → R → R)
    (nc : R → R) (x y : CountData) (hndx : (keysOf x).Nodup) (q : ℚ)
    (hq : Value.num q ∉ keysOf x) (alt dist pol : String) :
    bm sq tc nc (x ++ [(Value.num q, 0)]) y alt dist pol = bm sq tc nc x y alt dist pol := by
  have h1 : hasNegative (x ++ [(Value.num q, 0)]) = hasNegative x := by
    simp [hasNegative]
  have h2 : containsNan (x ++ [(Value.num q, 0)]) = containsNan x := by
    simp [containsNan]
  simp only [bm, h1, h2]
  refine if_congr Iff.rfl rfl (if_congr Iff.rfl rfl (if_congr Iff.rfl rfl
    (if_congr Iff.rfl rfl ?_)))
  split
  · rw [omitNan_append]
    have hsing : omitNan [(Value.num q, 0)] = [(Value.num q, 0)] := by simp [omitNan]
    rw [hsing, toQ_append, toQ_cons_num, toQ_nil]
    refine bmCore_appendzero_left sq tc nc _ _ ?_ q ?_ alt dist
    · exact nodup_keysOfQ_toQ _ (nodup_keysOf_omitNan x hndx)
    · intro hmem
      exact hq (mem_keysOf_omitNan x _ ((mem_keysOfQ_toQ _ q).mp hmem))
  · rw [toQ_append, toQ_cons_num, toQ_nil]
    refine bmCore_appendzero_left sq tc nc _ _ ?_ q ?_ alt dist
    · exact nodup_keysOfQ_toQ x hndx
    · intro hmem
      exact hq ((mem_keysOfQ_toQ x q).mp hmem)

theorem bm_appendzero_right {R : Type} [LinearOrderedField R] (sq : R → R) (tc : R → R → R)
    (nc : R → R) (x y : CountData) (hndy : (keysOf y).Nodup) (q : ℚ)
    (hq : Value.num q ∉ keysOf y) (alt dist pol : String) :
    bm sq tc nc x (y ++ [(Value.num q, 0)]) alt dist pol = bm sq tc nc x y alt dist pol := by
  have h1 : hasNegative (y ++ [(Value.num q, 0)]) = hasNegative y := by
    simp [hasNegative]
  have h2 : containsNan (y ++ [(Value.num q, 0)]) = containsNan y := by
    simp [containsNan]
  simp only [bm, h1, h2]
  refine if_congr Iff.rfl rfl (if_congr Iff.rfl rfl (if_congr Iff.rfl rfl
    (if_congr Iff.rfl rfl ?_)))
  split
  · rw [omitNan_append]
    have hsing : omitNan [(Value.num q, 0)] = [(Value.num q, 0)] := by simp [omitNan]
    rw [hsing, toQ_append, toQ_cons_num, toQ_nil]
    refine bmCore_appendzero_right sq tc nc _ _ ?_ q ?_ alt dist
    · exact nodup_keysOfQ_toQ _ (nodup_keysOf_omitNan y hndy)
    · intro hmem
      exact hq (mem_keysOf_omitNan y _ ((mem_keysOfQ_toQ _ q).mp hmem))
  · rw [toQ_append, toQ_cons_num, toQ_nil]
    refine bmCore_appendzero_right sq tc nc _ _ ?_ q ?_ alt dist
    · exact nodup_keysOfQ_toQ y hndy
    · intro hmem
      exact hq ((mem_keysOfQ_toQ y q).mp hmem)

/-! ## Lemmas about `removeKey` -/

theorem removeKey_cons_self (k : ℚ) (c : ℤ) (t : QMap) :
    removeKey ((k, c) :: t) k = removeKey t k := by
  simp [removeKey]

theorem removeKey_cons_ne (k : ℚ) (c : ℤ) (t : QMap) (v : ℚ) (h : k ≠ v) :
    removeKey ((k, c) :: t) v = (k, c) :: removeKey t v := by
  simp [removeKey, h]

theorem nodup_keysOfQ_removeKey (m : QMap) (v : ℚ) (hnd : (keysOfQ m).Nodup) :
    (keysOfQ (removeKey m v)).Nodup := by
  have hsub : (keysOfQ (removeKey m v)).Sublist (keysOfQ m) := by
    simp only [keysOfQ, removeKey]
    exact (List.filter_sublist m).map (fun e => e.1)
  exact List.Nodup.sublist hsub hnd

theorem lookupC_removeKey (m : QMap) (v w : ℚ) (hne : w ≠ v) :
    lookupC (removeKey m v) w = lookupC m w := by
  induction m with
  | nil => rfl
  | cons e t ih =>
    obtain ⟨k, c⟩ := e
    by_cases hk : k = v
    · subst hk
      rw [removeKey_cons_self, lookupC_cons_ne _ _ _ _ hne, ih]
    · rw [removeKey_cons_ne k c t v hk]
      by_cases hw : w = k
      · subst hw
        rw [lookupC_cons_self, lookupC_cons_self]
      · rw [lookupC_cons_ne _ _ _ _ hw, lookupC_cons_ne _ _ _ _ hw, ih]

theorem lowSum_removeKey (m : QMap) (v : ℚ) (hnd : (keysOfQ m).Nodup)
    (hm : (v, (0 : ℤ)) ∈ m) (w : ℚ) : lowSum (removeKey m v) w = lowSum m w := by
  simp only [lowSum]
  induction m with
  | nil => cases hm
  | cons e t ih =>
    obtain ⟨k, c⟩ := e
    rw [keysOfQ_cons] at hnd
    rcases List.nodup_cons.mp hnd with ⟨hk, ht⟩
    rcases List.mem_cons.mp hm with he | hmt
    · cases he
      rw [removeKey_cons_self]
      have hrt : removeKey t v = t := by
        rw [removeKey, List.filter_eq_self]
        intro e he
        have hmem : e.1 ∈ keysOfQ t := List.mem_map_of_mem _ he
        have hne : ¬(e.1 = v) := fun hh => hk (hh ▸ hmem)
        simpa using hne
      rw [hrt, wCount_cons]
      simp
    · have hkv : k ≠ v := by
        intro hkv
        subst hkv
        have hmem : (k : ℚ) ∈ keysOfQ t := List.mem_map_of_mem (fun e => e.1) hmt
        exact hk hmem
      rw [removeKey_cons_ne k c t v hkv, wCount_cons, wCount_cons, ih ht hmt]

theorem wCount_eq_zero_counts (p : ℚ → Bool) (m : QMap) (h : ∀ e ∈ m, e.2 = 0) :
    wCount p m = 0 := by
  induction m with
  | nil => rfl
  | cons e t ih =>
    rw [wCount_cons, h e (List.mem_cons_self e t),
      ih (fun e he => h e (List.mem_cons_of_mem _ he))]
    simp

/-! ## Claim theorems: the rank function -/

/-- C2 (confirmed): with positive counts and distinct keys, `rank_count_data`
with method `"average"` assigns each value `v` the midpoint
`(cursor + (cursor + count v - 1)) / 2` of its rank span, where the cursor at
`v` is one plus the total count of the strictly smaller keys; and
`rank_count_data({0: 1, 2: 2, 3: 1})` is `{0: 1.0, 2: 2.5, 3: 4.0}`. -/
theorem rank_average_midpoint (x : QMap) (hnd : (keysOfQ x).Nodup)
    (hpos : ∀ e ∈ x, 0 < e.2) (v : ℚ) (c : ℤ) (hm : (v, c) ∈ x) :
    lookupR (rankAvg x) v =
      ((1 + (lowSum x v : ℚ)) + ((1 + (lowSum x v : ℚ)) + (c : ℚ) - 1)) / 2 ∧
    rank_count_data [(0, 1), (2, 2), (3, 1)] "average" =
      Except.ok [(0, 1), (2, 5 / 2), (3, 4)] := by
  constructor
  · rw [lookupR_rankAvg x hnd v c hm]
    ring
  · have hguard : substrCh "average".toList "average".toList = true := by decide
    rw [rank_count_data, if_pos hguard]
    norm_num [rankAvg, sortByKey, List.insertionSort, List.orderedInsert, keyLE, rankWalk]

/-- Witness for C2 at `x = {0: 1, 2: 2, 3: 1}`, `v = 2` (count 2). -/
theorem rank_average_midpoint_witness :
    lookupR (rankAvg [(0, 1), (2, 2), (3, 1)]) 2 =
      ((1 + (lowSum [(0, 1), (2, 2), (3, 1)] 2 : ℚ)) +
        ((1 + (lowSum [(0, 1), (2, 2), (3, 1)] 2 : ℚ)) + ((2 : ℤ) : ℚ) - 1)) / 2 ∧
    rank_count_data [(0, 1), (2, 2), (3, 1)] "average" =
      Except.ok [(0, 1), (2, 5 / 2), (3, 4)] :=
  rank_average_midpoint [(0, 1), (2, 2), (3, 1)] (by decide) (by decide) 2 2 (by decide)

/-- C3 (confirmed): for a count map with distinct keys and non-negative counts
of total `n`, the count-weighted sum of the average ranks is `n * (n + 1) / 2`. -/
theorem rank_weighted_sum (x : QMap) (hnd : (keysOfQ x).Nodup)
    (hnn : ∀ e ∈ x, 0 ≤ e.2) :
    wSum x (lookupR (rankAvg x)) = (nxQ x : ℚ) * ((nxQ x : ℚ) + 1) / 2 :=
  wSum_rankAvg_total x hnd

/-- Witness for C3 at `x = {0: 1, 2: 2, 3: 1}` (total count 4). -/
theorem rank_weighted_sum_witness :
    wSum [(0, 1), (2, 2), (3, 1)] (lookupR (rankAvg [(0, 1), (2, 2), (3, 1)])) =
      (nxQ [(0, 1), (2, 2), (3, 1)] : ℚ) * ((nxQ [(0, 1), (2, 2), (3, 1)] : ℚ) + 1) / 2 :=
  rank_weighted_sum [(0, 1), (2, 2), (3, 1)] (by decide) (by decide)

/-- C6 (code bug): the source guard `method not in ("average")` is a Python
substring test, because `("average")` is a plain string, not a one-element
tuple.  Hence the non-`"average"` method `"aver"` is accepted and no
invalid-argument error is raised, contradicting the docstring
`method : {'average'}` and its `unknown method` error message. -/
theorem rank_method_substring_bug :
    rank_count_data [] "aver" = Except.ok [] ∧ ("aver" : String) ≠ "average" := by
  constructor
  · have hguard : substrCh "aver".toList "average".toList = true := by decide
    rw [rank_count_data, if_pos hguard]
    rfl
  · decide

/-- Counterexample for C7: in `rank_count_data({0: 0})` the zero-count key 0 is
visited with the rank cursor at 1, but its assigned rank is the midpoint of the
empty span `[1, 0]`, i.e. `0.5`, not the cursor value 1 the claim states. -/
theorem rank_zero_count_cex :
    rank_count_data [((0 : ℚ), (0 : ℤ))] "average" = Except.ok [(0, 1 / 2)] ∧
      ((1 : ℚ) / 2) ≠ 1 := by
  constructor
  · have hguard : substrCh "average".toList "average".toList = true := by decide
    rw [rank_count_data, if_pos hguard]
    norm_num [rankAvg, sortByKey, List.insertionSort, List.orderedInsert, keyLE, rankWalk]
  · norm_num

/-- C7 (amended): a zero-count key `v` receives the rank `cursor - 1/2` (the
midpoint of its empty span `[cursor, cursor - 1]`), not the cursor itself; its
presence still does not shift the rank assigned to any other key. -/
theorem rank_zero_count (x : QMap) (hnd : (keysOfQ x).Nodup) (hnn : ∀ e ∈ x, 0 ≤ e.2)
    (v : ℚ) (hm : (v, (0 : ℤ)) ∈ x) :
    lookupR (rankAvg x) v = (1 + (lowSum x v : ℚ)) - 1 / 2 ∧
    ∀ w cw, (w, cw) ∈ x → w ≠ v →
      lookupR (rankAvg x) w = lookupR (rankAvg (removeKey x v)) w := by
  constructor
  · rw [lookupR_rankAvg x hnd v 0 hm]
    push_cast
    ring
  · intro w cw hw hne
    have hw2 : (w, cw) ∈ removeKey x v := by
      rw [removeKey, List.mem_filter]
      exact ⟨hw, by simpa using hne⟩
    rw [lookupR_rankAvg x hnd w cw hw,
      lookupR_rankAvg (removeKey x v) (nodup_keysOfQ_removeKey x v hnd) w cw hw2,
      lowSum_removeKey x v hnd hm w]

/-- Witness for C7 (amended) at `x = {0: 0, 1: 1}`, `v = 0`, other key `w = 1`. -/
theorem rank_zero_count_witness :
    lookupR (rankAvg [((0 : ℚ), (0 : ℤ)), (1, 1)]) 0 =
      (1 + (lowSum [((0 : ℚ), (0 : ℤ)), (1, 1)] 0 : ℚ)) - 1 / 2 ∧
    lookupR (rankAvg [((0 : ℚ), (0 : ℤ)), (1, 1)]) 1 =
      lookupR (rankAvg (removeKey [((0 : ℚ), (0 : ℤ)), (1, 1)] 0)) 1 :=
  ⟨(rank_zero_count [((0 : ℚ), (0 : ℤ)), (1, 1)] (by decide) (by decide) 0 (by decide)).1,
   (rank_zero_count [((0 : ℚ), (0 : ℤ)), (1, 1)] (by decide) (by decide) 0 (by decide)).2
     1 1 (by decide) (by decide)⟩

/-- Counterexample for C8: the all-zero count map `{0: 0}` does not yield an
empty rank map — the zero-count key still receives an entry (with rank `0.5`). -/
theorem rank_all_zero_cex :
    rank_count_data [((0 : ℚ), (0 : ℤ))] "average" ≠ Except.ok [] := by
  have hguard : substrCh "average".toList "average".toList = true := by decide
  rw [rank_count_data, if_pos hguard]
  intro h
  have h2 := Except.ok.inj h
  exact List.cons_ne_nil _ _ h2

/-- C8 (amended): an empty count map yields an empty rank map, while an
all-zero count map (with distinct keys) yields a rank map that assigns every
key the rank `1/2`: the cursor never advances, so each key gets the midpoint
of the empty span at cursor 1. -/
theorem rank_empty_and_all_zero (x : QMap) (hnd : (keysOfQ x).Nodup)
    (hz : ∀ e ∈ x, e.2 = 0) (v : ℚ) (c : ℤ) (hm : (v, c) ∈ x) :
    rank_count_data [] "average" = Except.ok [] ∧ lookupR (rankAvg x) v = 1 / 2 := by
  constructor
  · rfl
  · have hc : c = 0 := hz (v, c) hm
    subst hc
    rw [lookupR_rankAvg x hnd v 0 hm, lowSum, wCount_eq_zero_counts _ x hz]
    norm_num

/-- Witness for C8 (amended) at the all-zero map `x = {5: 0}`. -/
theorem rank_empty_and_all_zero_witness :
    rank_count_data [] "average" = Except.ok [] ∧
      lookupR (rankAvg [((5 : ℚ), (0 : ℤ))]) 5 = 1 / 2 :=
  rank_empty_and_all_zero [((5 : ℚ), (0 : ℤ))] (by decide) (by decide) 5 0 (by decide)

/-! ## Shape lemmas for the engine result -/

theorem altAdjust_ok {R : Type} [LinearOrderedField R] (alt : String) (s p : R)
    (halt : alt = "greater" ∨ alt = "less" ∨ alt = "two-sided") :
    ∃ pv : R, altAdjust alt s p = Except.ok (PyFloat.val s, PyFloat.val pv) := by
  rcases halt with h | h | h <;> subst h
  · exact ⟨p, by rw [altAdjust, if_pos rfl]⟩
  · refine ⟨1 - p, ?_⟩
    rw [altAdjust, if_neg (by decide), if_pos rfl]
  · refine ⟨2 * min p (1 - p), ?_⟩
    rw [altAdjust, if_neg (by decide), if_neg (by decide), if_pos rfl]

theorem bmCore_ok_shape {R : Type} [LinearOrderedField R] (sq : R → R) (tc : R → R → R)
    (nc : R → R) (a b : QMap) (alt dist : String)
    (ha0 : ¬(nxQ a = 0 ∨ nxQ b = 0)) (ha1 : ¬(nxQ a = 1 ∨ nxQ b = 1))
    (hdist : dist = "t" ∨ dist = "normal")
    (halt : alt = "greater" ∨ alt = "less" ∨ alt = "two-sided") :
    ∃ pv : R, bmCore sq tc nc a b alt dist =
      Except.ok (PyFloat.val (statR sq a b), PyFloat.val pv) := by
  rw [bmCore, if_neg ha0, if_neg ha1]
  rcases hdist with h | h <;> subst h
  · rw [if_pos rfl]
    exact altAdjust_ok alt _ _ halt
  · rw [if_neg (by decide), if_pos rfl]
    exact altAdjust_ok alt _ _ halt

/-! ## Claim theorems: the engine -/

/-- C4 (confirmed): whenever either count map contains a negative count, the
engine raises the invalid-argument error for negative counts, for every
alternative / distribution / nan-policy argument — the check is the very first
guard, before NaN handling and before any option validation. -/
theorem bm_negative_counts {R : Type} [LinearOrderedField R] (sq : R → R) (tc : R → R → R)
    (nc : R → R) (x y : CountData) (hneg : (hasNegative x || hasNegative y) = true)
    (alt dist pol : String) :
    bm sq tc nc x y alt dist pol = Except.error BMErr.negCount := by
  rw [bm, if_pos hneg]

/-- Witness for C4 at `x = {0: -1, 1: 2}`, `y = {0: 1, 1: 2}`. -/
theorem bm_negative_counts_witness :
    bm (fun r : ℚ => r) (fun _ _ => (0 : ℚ)) (fun _ => (0 : ℚ))
      [(Value.num 0, -1), (Value.num 1, 2)] [(Value.num 0, 1), (Value.num 1, 2)]
      "two-sided" "t" "propagate" = Except.error BMErr.negCount :=
  bm_negative_counts _ _ _ _ _ (by decide) _ _ _

/-- C5 (amended): with non-negative counts, a valid nan policy, and provided it
is not the case that a NaN key is present while the policy is `"raise"` (in
which case the NaN error is raised first), the engine returns the sentinel
`(NaN, NaN)` whenever either sample size after omission is zero or a NaN key is
present under the `"propagate"` policy. -/
theorem bm_degenerate_nan {R : Type} [LinearOrderedField R] (sq : R → R) (tc : R → R → R)
    (nc : R → R) (x y : CountData) (alt dist pol : String)
    (hnegx : hasNegative x = false) (hnegy : hasNegative y = false)
    (hpol : pol = "propagate" ∨ pol = "raise" ∨ pol = "omit")
    (hraise : ¬((containsNan x || containsNan y) = true ∧ pol = "raise"))
    (hdeg : total (omitNan x) = 0 ∨ total (omitNan y) = 0 ∨
      ((containsNan x || containsNan y) = true ∧ pol = "propagate")) :
    bm sq tc nc x y alt dist pol = Except.ok (PyFloat.nan, PyFloat.nan) := by
  have hneg : (hasNegative x || hasNegative y) = false := by rw [hnegx, hnegy]; rfl
  have hg3 : ¬(((containsNan x || containsNan y) && decide (pol = "raise")) = true) := by
    intro hB
    simp only [Bool.and_eq_true, decide_eq_true_eq] at hB
    exact hraise hB
  rw [bm, if_neg (by simp [hneg]), if_neg (fun hc => hc hpol), if_neg hg3]
  by_cases h4 : ((containsNan x || containsNan y) && decide (pol = "propagate")) = true
  · rw [if_pos h4]
  · rw [if_neg h4]
    have hcnfact : ∀ m : CountData, containsNan m = false →
        nxQ (toQ (if ((containsNan x || containsNan y) && decide (pol = "omit")) = true
          then omitNan m else m)) = total (omitNan m) := by
      intro m hm
      split
      · rw [nxQ_toQ _ (containsNan_omitNan m)]
      · rw [nxQ_toQ m hm, omitNan_eq_self m hm]
    have hx1 : nxQ (toQ (if ((containsNan x || containsNan y) && decide (pol = "omit")) = true
        then omitNan x else x)) = total (omitNan x) := by
      by_cases h5 : ((containsNan x || containsNan y) && decide (pol = "omit")) = true
      · rw [if_pos h5, nxQ_toQ _ (containsNan_omitNan x)]
      · rw [if_neg h5]
        have hcontra : (containsNan x || containsNan y) = false := by
          cases hval : (containsNan x || containsNan y)
          · rfl
          · rcases hpol with hp | hp | hp
            · exact absurd (by simp [hval, hp]) h4
            · exact absurd ⟨hval, hp⟩ hraise
            · exact absurd (by simp [hval, hp]) h5
        have hcx : containsNan x = false := (Bool.or_eq_false_iff.mp hcontra).1
        rw [nxQ_toQ x hcx, omitNan_eq_self x hcx]
    have hy1 : nxQ (toQ (if ((containsNan x || containsNan y) && decide (pol = "omit")) = true
        then omitNan y else y)) = total (omitNan y) := by
      by_cases h5 : ((containsNan x || containsNan y) && decide (pol = "omit")) = true
      · rw [if_pos h5, nxQ_toQ _ (containsNan_omitNan y)]
      · rw [if_neg h5]
        have hcontra : (containsNan x || containsNan y) = false := by
          cases hval : (containsNan x || containsNan y)
          · rfl
          · rcases hpol with hp | hp | hp
            · exact absurd (by simp [hval, hp]) h4
            · exact absurd ⟨hval, hp⟩ hraise
            · exact absurd (by simp [hval, hp]) h5
        have hcy : containsNan y = false := (Bool.or_eq_false_iff.mp hcontra).2
        rw [nxQ_toQ y hcy, omitNan_eq_self y hcy]
    rcases hdeg with hx0 | hy0 | hprop
    · rw [bmCore, if_pos (Or.inl (by rw [hx1]; exact hx0))]
    · rw [bmCore, if_pos (Or.inr (by rw [hy1]; exact hy0))]
    · exact absurd (by simp [hprop.1, hprop.2]) h4

/-- Witness for C5 at `x = {}` (size 0), `y = {0: 1, 1: 2}`, default options. -/
theorem bm_degenerate_nan_witness :
    bm (fun r : ℚ => r) (fun _ _ => (0 : ℚ)) (fun _ => (0 : ℚ)) []
      [(Value.num 0, 1), (Value.num 1, 2)] "two-sided" "t" "propagate" =
      Except.ok (PyFloat.nan, PyFloat.nan) :=
  bm_degenerate_nan _ _ _ [] [(Value.num 0, 1), (Value.num 1, 2)] "two-sided" "t" "propagate"
    (by decide) (by decide) (Or.inl rfl) (by decide) (by decide)

/-- Counterexample for C5: `x = {NaN: 0}` has sample size 0, yet with
`nan_policy = "raise"` the engine raises the NaN error instead of returning
the `(NaN, NaN)` sentinel — NaN detection looks at the keys, before the
zero-size short-circuit, so the claim fails as stated. -/
theorem bm_degenerate_nan_cex :
    total (omitNan [((Value.nan : Value), (0 : ℤ))]) = 0 ∧
    bm (fun r : ℚ => r) (fun _ _ => (0 : ℚ)) (fun _ => (0 : ℚ)) [(Value.nan, 0)]
      [(Value.num 0, 1)] "two-sided" "t" "raise" ≠
      Except.ok (PyFloat.nan, PyFloat.nan) ∧
    bm (fun r : ℚ => r) (fun _ _ => (0 : ℚ)) (fun _ => (0 : ℚ)) [(Value.nan, 0)]
      [(Value.num 0, 1)] "two-sided" "t" "raise" = Except.error BMErr.nanRaise := by
  refine ⟨by decide, by decide, by decide⟩

/-- C9 (amended): appending a zero-count entry with a fresh numeric (non-NaN)
key to either count map leaves the engine result unchanged, for every
alternative / distribution / nan-policy argument.  (The claim as stated — for
an arbitrary fresh key — fails when the key is NaN; see the counterexample.) -/
theorem bm_zero_count_inert {R : Type} [LinearOrderedField R] (sq : R → R) (tc : R → R → R)
    (nc : R → R) (x y : CountData) (hndx : (keysOf x).Nodup) (hndy : (keysOf y).Nodup)
    (hnnx : ∀ e ∈ x, 0 ≤ e.2) (hnny : ∀ e ∈ y, 0 ≤ e.2) (q : ℚ)
    (alt dist pol : String) :
    (Value.num q ∉ keysOf x →
      bm sq tc nc (x ++ [(Value.num q, 0)]) y alt dist pol =
        bm sq tc nc x y alt dist pol) ∧
    (Value.num q ∉ keysOf y →
      bm sq tc nc x (y ++ [(Value.num q, 0)]) alt dist pol =
        bm sq tc nc x y alt dist pol) :=
  ⟨fun hq => bm_appendzero_left sq tc nc x y hndx q hq alt dist pol,
   fun hq => bm_appendzero_right sq tc nc x y hndy q hq alt dist pol⟩

/-- Witness for C9 (amended) at `x = {0: 1}`, `y = {1: 1}`, fresh key 5. -/
theorem bm_zero_count_inert_witness :
    bm (fun r : ℚ => r) (fun _ _ => (0 : ℚ)) (fun _ => (0 : ℚ))
      ([(Value.num 0, 1)] ++ [(Value.num 5, 0)]) [(Value.num 1, 1)]
      "two-sided" "t" "propagate" =
      bm (fun r : ℚ => r) (fun _ _ => (0 : ℚ)) (fun _ => (0 : ℚ)) [(Value.num 0, 1)]
        [(Value.num 1, 1)] "two-sided" "t" "propagate" ∧
    bm (fun r : ℚ => r) (fun _ _ => (0 : ℚ)) (fun _ => (0 : ℚ)) [(Value.num 0, 1)]
      ([(Value.num 1, 1)] ++ [(Value.num 5, 0)]) "two-sided" "t" "propagate" =
      bm (fun r : ℚ => r) (fun _ _ => (0 : ℚ)) (fun _ => (0 : ℚ)) [(Value.num 0, 1)]
        [(Value.num 1, 1)] "two-sided" "t" "propagate" :=
  ⟨(bm_zero_count_inert _ _ _ _ _ (by decide) (by decide) (by decide) (by decide) 5
      "two-sided" "t" "propagate").1 (by decide),
   (bm_zero_count_inert _ _ _ _ _ (by decide) (by decide) (by decide) (by decide) 5
      "two-sided" "t" "propagate").2 (by decide)⟩

/-- Counterexample for C9 as stated: adding the entry `NaN: 0` to
`x = {0: 1, 1: 1}` (key not already present) changes the result under
`nan_policy = "propagate"` from a numeric pair to `(NaN, NaN)`, because NaN
detection looks at the keys regardless of their counts. -/
theorem bm_zero_count_inert_cex :
    bm (fun r : ℚ => r) (fun _ _ => (0 : ℚ)) (fun _ => (0 : ℚ))
      ([(Value.num 0, 1), (Value.num 1, 1)] ++ [(Value.nan, 0)])
      [(Value.num 0, 1), (Value.num 1, 1)] "two-sided" "t" "propagate" ≠
    bm (fun r : ℚ => r) (fun _ _ => (0 : ℚ)) (fun _ => (0 : ℚ))
      [(Value.num 0, 1), (Value.num 1, 1)] [(Value.num 0, 1), (Value.num 1, 1)]
      "two-sided" "t" "propagate" := by
  have hL : bm (fun r : ℚ => r) (fun _ _ => (0 : ℚ)) (fun _ => (0 : ℚ))
      ([(Value.num 0, 1), (Value.num 1, 1)] ++ [(Value.nan, 0)])
      [(Value.num 0, 1), (Value.num 1, 1)] "two-sided" "t" "propagate" =
      Except.ok (PyFloat.nan, PyFloat.nan) := by decide
  have hR0 : bm (fun r : ℚ => r) (fun _ _ => (0 : ℚ)) (fun _ => (0 : ℚ))
      [(Value.num 0, 1), (Value.num 1, 1)] [(Value.num 0, 1), (Value.num 1, 1)]
      "two-sided" "t" "propagate" =
      bmCore (fun r : ℚ => r) (fun _ _ => (0 : ℚ)) (fun _ => (0 : ℚ))
        (toQ [(Value.num 0, 1), (Value.num 1, 1)])
        (toQ [(Value.num 0, 1), (Value.num 1, 1)]) "two-sided" "t" := rfl
  obtain ⟨pv, hpv⟩ := bmCore_ok_shape (fun r : ℚ => r) (fun _ _ => (0 : ℚ))
    (fun _ => (0 : ℚ)) (toQ [(Value.num 0, 1), (Value.num 1, 1)])
    (toQ [(Value.num 0, 1), (Value.num 1, 1)]) "two-sided" "t"
    (by decide) (by decide) (Or.inl rfl) (Or.inr (Or.inr rfl))
  intro h
  rw [hL, hR0, hpv] at h
  have h2 := Except.ok.inj h
  have h3 := congrArg Prod.fst h2
  exact PyFloat.noConfusion h3

/-- C10 (amended): with distinct non-NaN keys, non-negative counts, both total
counts at least 2 (a total of exactly 1 makes the code raise
`ZeroDivisionError` at `Sx /= nx - 1`, so the claim's bound of 1 had to be
raised), valid option strings and a nonzero pooled dispersion term, swapping
the two samples negates the W statistic exactly. -/
theorem bm_swap_negates {R : Type} [LinearOrderedField R] (sq : R → R) (tc : R → R → R)
    (nc : R → R) (x y : CountData) (alt dist pol : String)
    (hnegx : hasNegative x = false) (hnegy : hasNegative y = false)
    (hcnx : containsNan x = false) (hcny : containsNan y = false)
    (hx2 : 2 ≤ total x) (hy2 : 2 ≤ total y)
    (hpol : pol = "propagate" ∨ pol = "raise" ∨ pol = "omit")
    (hdist : dist = "t" ∨ dist = "normal")
    (halt : alt = "greater" ∨ alt = "less" ∨ alt = "two-sided")
    (hB : poolB (toQ x) (toQ y) ≠ 0) :
    ∃ s px py : R,
      bm sq tc nc x y alt dist pol = Except.ok (PyFloat.val s, PyFloat.val px) ∧
      bm sq tc nc y x alt dist pol = Except.ok (PyFloat.val (-s), PyFloat.val py) := by
  have hcn : (containsNan x || containsNan y) = false := by rw [hcnx, hcny]; rfl
  have hcn2 : (containsNan y || containsNan x) = false := by rw [hcnx, hcny]; rfl
  have hnegxy : (hasNegative x || hasNegative y) = false := by rw [hnegx, hnegy]; rfl
  have hnegyx : (hasNegative y || hasNegative x) = false := by rw [hnegx, hnegy]; rfl
  have hbmx : bm sq tc nc x y alt dist pol = bmCore sq tc nc (toQ x) (toQ y) alt dist := by
    rw [bm, if_neg (by simp [hnegxy]), if_neg (fun hc => hc hpol), if_neg (by simp [hcn]),
      if_neg (by simp [hcn]), if_neg (by simp [hcn]), if_neg (by simp [hcn])]
  have hbmy : bm sq tc nc y x alt dist pol = bmCore sq tc nc (toQ y) (toQ x) alt dist := by
    rw [bm, if_neg (by simp [hnegyx]), if_neg (fun hc => hc hpol), if_neg (by simp [hcn2]),
      if_neg (by simp [hcn2]), if_neg (by simp [hcn2]), if_neg (by simp [hcn2])]
  have hnx : nxQ (toQ x) = total x := nxQ_toQ x hcnx
  have hny : nxQ (toQ y) = total y := nxQ_toQ y hcny
  have ha0 : ¬(nxQ (toQ x) = 0 ∨ nxQ (toQ y) = 0) := by rw [hnx, hny]; omega
  have ha1 : ¬(nxQ (toQ x) = 1 ∨ nxQ (toQ y) = 1) := by rw [hnx, hny]; omega
  have hb0 : ¬(nxQ (toQ y) = 0 ∨ nxQ (toQ x) = 0) := by rw [hnx, hny]; omega
  have hb1 : ¬(nxQ (toQ y) = 1 ∨ nxQ (toQ x) = 1) := by rw [hnx, hny]; omega
  obtain ⟨px, hpx⟩ := bmCore_ok_shape sq tc nc (toQ x) (toQ y) alt dist ha0 ha1 hdist halt
  obtain ⟨py, hpy⟩ := bmCore_ok_shape sq tc nc (toQ y) (toQ x) alt dist hb0 hb1 hdist halt
  refine ⟨statR sq (toQ x) (toQ y), px, py, by rw [hbmx, hpx], ?_⟩
  rw [hbmy, hpy, statR_swap sq (toQ x) (toQ y)]

/-- Witness for C10 (amended) at `x = {1: 1, 2: 1}`, `y = {1: 1, 3: 1}`
(total counts 2, pooled dispersion `5/2 ≠ 0`). -/
theorem bm_swap_negates_witness :
    ∃ s px py : ℚ,
      bm (fun r : ℚ => r) (fun _ _ => (0 : ℚ)) (fun _ => (0 : ℚ))
        [(Value.num 1, 1), (Value.num 2, 1)] [(Value.num 1, 1), (Value.num 3, 1)]
        "two-sided" "t" "propagate" = Except.ok (PyFloat.val s, PyFloat.val px) ∧
      bm (fun r : ℚ => r) (fun _ _ => (0 : ℚ)) (fun _ => (0 : ℚ))
        [(Value.num 1, 1), (Value.num 3, 1)] [(Value.num 1, 1), (Value.num 2, 1)]
        "two-sided" "t" "propagate" = Except.ok (PyFloat.val (-s), PyFloat.val py) :=
  bm_swap_negates _ _ _ [(Value.num 1, 1), (Value.num 2, 1)]
    [(Value.num 1, 1), (Value.num 3, 1)] "two-sided" "t" "propagate"
    (by decide) (by decide) (by decide) (by decide) (by decide) (by decide)
    (Or.inl rfl) (Or.inl rfl) (Or.inr (Or.inr rfl))
    (by norm_num [poolB, sgX, sgY, mcx, mcy, mw, rankcOf, rankAvg, sortByKey, nxQ, wSum,
      lookupR, join2, join_count_data, joinInto, addEntry, List.insertionSort,
      List.orderedInsert, keyLE, rankWalk, toQ_cons_num, toQ_nil, lowSum, wCount])

/-- Counterexample for C10 as stated: `x = {2: 1}` has sample size exactly 1
and the pooled dispersion term is `1 ≠ 0`, yet the engine raises
`ZeroDivisionError` (`Sx /= nx - 1` divides a float by the int 0), so no W
statistic exists at all — sample sizes of at least 1 are not sufficient. -/
theorem bm_swap_negates_cex :
    (1 : ℤ) ≤ total [((Value.num 2 : Value), (1 : ℤ))] ∧
    poolB (toQ [((Value.num 2 : Value), (1 : ℤ))])
      (toQ [(Value.num 1, 1), (Value.num 3, 1)]) ≠ 0 ∧
    bm (fun r : ℚ => r) (fun _ _ => (0 : ℚ)) (fun _ => (0 : ℚ)) [(Value.num 2, 1)]
      [(Value.num 1, 1), (Value.num 3, 1)] "two-sided" "t" "propagate" =
      Except.error BMErr.zeroDiv ∧
    ¬∃ s px py : ℚ,
      bm (fun r : ℚ => r) (fun _ _ => (0 : ℚ)) (fun _ => (0 : ℚ)) [(Value.num 2, 1)]
        [(Value.num 1, 1), (Value.num 3, 1)] "two-sided" "t" "propagate" =
        Except.ok (PyFloat.val s, PyFloat.val px) ∧
      bm (fun r : ℚ => r) (fun _ _ => (0 : ℚ)) (fun _ => (0 : ℚ))
        [(Value.num 1, 1), (Value.num 3, 1)] [(Value.num 2, 1)]
        "two-sided" "t" "propagate" = Except.ok (PyFloat.val (-s), PyFloat.val py) := by
  refine ⟨by decide, ?_, by decide, ?_⟩
  · norm_num [poolB, sgX, sgY, mcx, mcy, mw, rankcOf, rankAvg, sortByKey, nxQ, wSum,
      lookupR, join2, join_count_data, joinInto, addEntry, List.insertionSort,
      List.orderedInsert, keyLE, rankWalk, toQ_cons_num, toQ_nil, lowSum, wCount]
  · rintro ⟨s, px, py, h1, h2⟩
    have hz : bm (fun r : ℚ => r) (fun _ _ => (0 : ℚ)) (fun _ => (0 : ℚ)) [(Value.num 2, 1)]
        [(Value.num 1, 1), (Value.num 3, 1)] "two-sided" "t" "propagate" =
        Except.error BMErr.zeroDiv := by decide
    rw [hz] at h1
    exact Except.noConfusion h1

/-- Counterexample for C1 as stated: the expansion equivalence fails on two
concrete inputs with non-negative counts.  At `x = {NaN: 0, 0: 1, 1: 1}`,
`y = {0: 1, 1: 1}` under `nan_policy = "propagate"` the engine detects the NaN
among the dict keys even though its count is 0 and returns `(NaN, NaN)`, while
the expansion of `x` is the NaN-free array `[0, 1]`, on which the array-based
procedure returns the numeric pair with statistic 0.  And at `x = {2: 1}`,
`y = {1: 1, 3: 1}` the engine raises `ZeroDivisionError` (`Sx /= nx - 1` with
`nx = 1`), while the array-based procedure returns a numeric pair. -/
theorem bm_expansion_divergence :
    bm (fun r : ℚ => r) (fun _ _ => (0 : ℚ)) (fun _ => (0 : ℚ))
      [(Value.nan, 0), (Value.num 0, 1), (Value.num 1, 1)]
      [(Value.num 0, 1), (Value.num 1, 1)] "two-sided" "t" "propagate" =
      Except.ok (PyFloat.nan, PyFloat.nan) ∧
    expandCD [(Value.nan, 0), (Value.num 0, 1), (Value.num 1, 1)] =
      [Value.num 0, Value.num 1] ∧
    expandCD [(Value.num 0, 1), (Value.num 1, 1)] = [Value.num 0, Value.num 1] ∧
    bmArraySpec (fun r : ℚ => r) (fun _ _ => (0 : ℚ)) (fun _ => (0 : ℚ))
      [Value.num 0, Value.num 1] [Value.num 0, Value.num 1]
      "two-sided" "t" "propagate" = Except.ok (PyFloat.val 0, PyFloat.val 0) ∧
    bm (fun r : ℚ => r) (fun _ _ => (0 : ℚ)) (fun _ => (0 : ℚ))
      [(Value.nan, 0), (Value.num 0, 1), (Value.num 1, 1)]
      [(Value.num 0, 1), (Value.num 1, 1)] "two-sided" "t" "propagate" ≠
      bmArraySpec (fun r : ℚ => r) (fun _ _ => (0 : ℚ)) (fun _ => (0 : ℚ))
        (expandCD [(Value.nan, 0), (Value.num 0, 1), (Value.num 1, 1)])
        (expandCD [(Value.num 0, 1), (Value.num 1, 1)]) "two-sided" "t" "propagate" ∧
    bm (fun r : ℚ => r) (fun _ _ => (0 : ℚ)) (fun _ => (0 : ℚ)) [(Value.num 2, 1)]
      [(Value.num 1, 1), (Value.num 3, 1)] "two-sided" "t" "propagate" =
      Except.error BMErr.zeroDiv ∧
    bmArraySpec (fun r : ℚ => r) (fun _ _ => (0 : ℚ)) (fun _ => (0 : ℚ))
      (expandCD [(Value.num 2, 1)]) (expandCD [(Value.num 1, 1), (Value.num 3, 1)])
      "two-sided" "t" "propagate" = Except.ok (PyFloat.val 0, PyFloat.val 0) := by
  have h1 : bm (fun r : ℚ => r) (fun _ _ => (0 : ℚ)) (fun _ => (0 : ℚ))
      [(Value.nan, 0), (Value.num 0, 1), (Value.num 1, 1)]
      [(Value.num 0, 1), (Value.num 1, 1)] "two-sided" "t" "propagate" =
      Except.ok (PyFloat.nan, PyFloat.nan) := by decide
  have h2 : expandCD [(Value.nan, 0), (Value.num 0, 1), (Value.num 1, 1)] =
      [Value.num 0, Value.num 1] := by decide
  have h3 : expandCD [(Value.num 0, 1), (Value.num 1, 1)] = [Value.num 0, Value.num 1] := by
    decide
  have h4 : bmArraySpec (fun r : ℚ => r) (fun _ _ => (0 : ℚ)) (fun _ => (0 : ℚ))
      [Value.num 0, Value.num 1] [Value.num 0, Value.num 1]
      "two-sided" "t" "propagate" = Except.ok (PyFloat.val 0, PyFloat.val 0) := by
    have hn1 : numsOf [Value.num 0, Value.num 1] = [0, 1] := by decide
    norm_num [bmArraySpec, altAdjust, aStat, aPoolA, aPoolB, aMcx, aMcy, aMw, aSx, aSy, aDf,
      arank, sumQ, hn1, anyNan]
    decide
  have h7 : bmArraySpec (fun r : ℚ => r) (fun _ _ => (0 : ℚ)) (fun _ => (0 : ℚ))
      (expandCD [(Value.num 2, 1)]) (expandCD [(Value.num 1, 1), (Value.num 3, 1)])
      "two-sided" "t" "propagate" = Except.ok (PyFloat.val 0, PyFloat.val 0) := by
    have he : expandCD [((Value.num 2 : Value), (1 : ℤ))] = [Value.num 2] := by decide
    have he2 : expandCD [(Value.num 1, 1), (Value.num 3, 1)] =
        [Value.num 1, Value.num 3] := by decide
    have hn1 : numsOf [Value.num 2] = [2] := by decide
    have hn2 : numsOf [Value.num 1, Value.num 3] = [1, 3] := by decide
    rw [he, he2]
    norm_num [bmArraySpec, altAdjust, aStat, aPoolA, aPoolB, aMcx, aMcy, aMw, aSx, aSy, aDf,
      arank, sumQ, hn1, hn2, anyNan]
    decide
  refine ⟨h1, h2, h3, h4, ?_, by decide, h7⟩
  rw [h1, h2, h3, h4]
  decide

/-! ## Expansion lemmas: counting and summing over the raw observation list -/

theorem wCount_ext (p q : ℚ → Bool) (m : QMap) (h : ∀ k, p k = q k) :
    wCount p m = wCount q m := by
  induction m with
  | nil => rfl
  | cons e t ih => rw [wCount_cons, wCount_cons, h e.1, ih]

theorem countP_replicate (p : ℚ → Bool) (n : ℕ) (v : ℚ) :
    List.countP p (List.replicate n v) = if p v then n else 0 := by
  induction n with
  | zero => simp
  | succ n ih =>
    rw [List.replicate_succ, List.countP_cons, ih]
    by_cases h : p v <;> simp [h]

theorem expandQ_nil : expandQ [] = [] := rfl

theorem expandQ_cons (e : ℚ × ℤ) (t : QMap) :
    expandQ (e :: t) = List.replicate e.2.toNat e.1 ++ expandQ t := by
  simp [expandQ]

theorem countP_expandQ (p : ℚ → Bool) (m : QMap) (hnn : ∀ e ∈ m, 0 ≤ e.2) :
    (List.countP p (expandQ m) : ℤ) = wCount p m := by
  induction m with
  | nil => rfl
  | cons e t ih =>
    obtain ⟨v, c⟩ := e
    have hc : 0 ≤ c := hnn (v, c) (List.mem_cons_self _ _)
    have iht := ih (fun e he => hnn e (List.mem_cons_of_mem _ he))
    rw [expandQ_cons, List.countP_append, wCount_cons]
    push_cast
    rw [countP_replicate]
    by_cases h : p v
    · rw [if_pos h, if_pos h]
      push_cast
      rw [Int.toNat_of_nonneg hc, iht]
    · rw [if_neg h, if_neg h]
      push_cast
      rw [iht]

theorem sumQ_expandQ (m : QMap) (g : ℚ → ℚ) (hnn : ∀ e ∈ m, 0 ≤ e.2) :
    sumQ (expandQ m) g = wSum m g := by
  induction m with
  | nil => rfl
  | cons e t ih =>
    obtain ⟨v, c⟩ := e
    have hc : 0 ≤ c := hnn (v, c) (List.mem_cons_self _ _)
    have iht := ih (fun e he => hnn e (List.mem_cons_of_mem _ he))
    rw [expandQ_cons, wSum_cons]
    rw [sumQ, List.map_append, List.sum_append]
    have hrep : ((List.replicate c.toNat (v : ℚ)).map g).sum = g v * (c : ℚ) := by
      rw [List.map_replicate, List.sum_replicate, nsmul_eq_mul]
      rw [show ((c.toNat : ℕ) : ℚ) = ((c.toNat : ℤ) : ℚ) by push_cast; ring,
        Int.toNat_of_nonneg hc]
      ring
    rw [hrep]
    have hrest : (List.map g (expandQ t)).sum = wSum t g := iht
    rw [hrest]

theorem length_expandQ (m : QMap) (hnn : ∀ e ∈ m, 0 ≤ e.2) :
    ((expandQ m).length : ℤ) = nxQ m := by
  induction m with
  | nil => rfl
  | cons e t ih =>
    obtain ⟨v, c⟩ := e
    have hc : 0 ≤ c := hnn (v, c) (List.mem_cons_self _ _)
    have iht := ih (fun e he => hnn e (List.mem_cons_of_mem _ he))
    rw [expandQ_cons, List.length_append, nxQ_cons]
    push_cast
    rw [List.length_replicate]
    push_cast
    rw [Int.toNat_of_nonneg hc, iht]

/-! ## The rank bridge: positional average ranks equal count-based ranks -/

theorem arank_join (a b : QMap) (v : ℚ) (hv : v ∈ keysOfQ (join2 a b))
    (hnna : ∀ e ∈ a, 0 ≤ e.2) (hnnb : ∀ e ∈ b, 0 ≤ e.2) :
    arank (expandQ a ++ expandQ b) v = lookupR (rankAvg (join2 a b)) v := by
  rw [lookupR_rankAvg_keys _ (nodup_keysOfQ_join2 a b) v hv, arank, List.countP_append,
    List.countP_append, lookupC_join2, lowSum_join2]
  have h1 := countP_expandQ (fun w => decide (w < v)) a hnna
  have h2 := countP_expandQ (fun w => decide (w < v)) b hnnb
  have h3 := countP_expandQ (fun w => decide (w = v)) a hnna
  have h4 := countP_expandQ (fun w => decide (w = v)) b hnnb
  have ha : wCount (fun w => decide (w = v)) a = allC a v :=
    wCount_ext _ _ a (fun k => by simp [eq_comm])
  have hb : wCount (fun w => decide (w = v)) b = allC b v :=
    wCount_ext _ _ b (fun k => by simp [eq_comm])
  rw [ha] at h3
  rw [hb] at h4
  have hls : lowSum a v = wCount (fun w => decide (w < v)) a := rfl
  have hls2 : lowSum b v = wCount (fun w => decide (w < v)) b := rfl
  push_cast
  rw [hls, hls2, ← h1, ← h2, ← h3, ← h4]
  push_cast
  ring

theorem arank_within (a : QMap) (hnd : (keysOfQ a).Nodup) (v : ℚ) (hv : v ∈ keysOfQ a)
    (hnna : ∀ e ∈ a, 0 ≤ e.2) :
    arank (expandQ a) v = lookupR (rankAvg a) v := by
  rw [lookupR_rankAvg_keys a hnd v hv, arank]
  have h1 := countP_expandQ (fun w => decide (w < v)) a hnna
  have h3 := countP_expandQ (fun w => decide (w = v)) a hnna
  have ha : wCount (fun w => decide (w = v)) a = allC a v :=
    wCount_ext _ _ a (fun k => by simp [eq_comm])
  rw [ha] at h3
  have hls : lowSum a v = wCount (fun w => decide (w < v)) a := rfl
  rw [← allC_eq_lookupC a v hnd, hls, ← h1, ← h3]
  push_cast
  ring

/-! ## Array-side components equal count-side components on the expansion -/

theorem lengthQ_cast (a : QMap) (hnna : ∀ e ∈ a, 0 ≤ e.2) :
    (((expandQ a).length : ℕ) : ℚ) = (nxQ a : ℚ) := by
  exact_mod_cast length_expandQ a hnna

theorem aMcx_eq (a b : QMap) (hnna : ∀ e ∈ a, 0 ≤ e.2) (hnnb : ∀ e ∈ b, 0 ≤ e.2) :
    aMcx (expandQ a) (expandQ b) = mcx a b := by
  rw [aMcx, mcx, sumQ_expandQ a _ hnna, lengthQ_cast a hnna]
  congr 1
  refine wSum_congr_keys a _ _ (fun v hv => ?_)
  rw [arank_join a b v ((mem_keysOfQ_join2 a b v).mpr (Or.inl hv)) hnna hnnb]
  rfl

theorem aMcy_eq (a b : QMap) (hnna : ∀ e ∈ a, 0 ≤ e.2) (hnnb : ∀ e ∈ b, 0 ≤ e.2) :
    aMcy (expandQ a) (expandQ b) = mcy a b := by
  rw [aMcy, mcy, sumQ_expandQ b _ hnnb, lengthQ_cast b hnnb]
  congr 1
  refine wSum_congr_keys b _ _ (fun v hv => ?_)
  rw [arank_join a b v ((mem_keysOfQ_join2 a b v).mpr (Or.inr hv)) hnna hnnb]
  rfl

theorem aMw_eq (a : QMap) (hnda : (keysOfQ a).Nodup) (hnna : ∀ e ∈ a, 0 ≤ e.2) :
    aMw (expandQ a) = mw a := by
  rw [aMw, mw, sumQ_expandQ a _ hnna, lengthQ_cast a hnna]
  congr 1
  exact wSum_congr_keys a _ _ (fun v hv => arank_within a hnda v hv hnna)

theorem aSx_eq (a b : QMap) (hnda : (keysOfQ a).Nodup) (hnna : ∀ e ∈ a, 0 ≤ e.2)
    (hnnb : ∀ e ∈ b, 0 ≤ e.2) : aSx (expandQ a) (expandQ b) = sgX a b := by
  rw [aSx, sgX, sumQ_expandQ a _ hnna, lengthQ_cast a hnna]
  congr 1
  refine wSum_congr_keys a _ _ (fun v hv => ?_)
  rw [arank_join a b v ((mem_keysOfQ_join2 a b v).mpr (Or.inl hv)) hnna hnnb,
    arank_within a hnda v hv hnna, aMcx_eq a b hnna hnnb, aMw_eq a hnda hnna]
  rfl

theorem aSy_eq (a b : QMap) (hndb : (keysOfQ b).Nodup) (hnna : ∀ e ∈ a, 0 ≤ e.2)
    (hnnb : ∀ e ∈ b, 0 ≤ e.2) : aSy (expandQ a) (expandQ b) = sgY a b := by
  rw [aSy, sgY, sumQ_expandQ b _ hnnb, lengthQ_cast b hnnb]
  congr 1
  refine wSum_congr_keys b _ _ (fun v hv => ?_)
  rw [arank_join a b v ((mem_keysOfQ_join2 a b v).mpr (Or.inr hv)) hnna hnnb,
    arank_within b hndb v hv hnnb, aMcy_eq a b hnna hnnb, aMw_eq b hndb hnnb]
  rfl

theorem aPoolA_eq (a b : QMap) (hnna : ∀ e ∈ a, 0 ≤ e.2) (hnnb : ∀ e ∈ b, 0 ≤ e.2) :
    aPoolA (expandQ a) (expandQ b) = poolA a b := by
  rw [aPoolA, poolA, lengthQ_cast a hnna, lengthQ_cast b hnnb, aMcx_eq a b hnna hnnb,
    aMcy_eq a b hnna hnnb]

theorem aPoolB_eq (a b : QMap) (hnda : (keysOfQ a).Nodup) (hndb : (keysOfQ b).Nodup)
    (hnna : ∀ e ∈ a, 0 ≤ e.2) (hnnb : ∀ e ∈ b, 0 ≤ e.2) :
    aPoolB (expandQ a) (expandQ b) = poolB a b := by
  rw [aPoolB, poolB, lengthQ_cast a hnna, lengthQ_cast b hnnb, aSx_eq a b hnda hnna hnnb,
    aSy_eq a b hndb hnna hnnb]

theorem aDf_eq (a b : QMap) (hnda : (keysOfQ a).Nodup) (hndb : (keysOfQ b).Nodup)
    (hnna : ∀ e ∈ a, 0 ≤ e.2) (hnnb : ∀ e ∈ b, 0 ≤ e.2) :
    aDf (expandQ a) (expandQ b) = dfQ a b := by
  rw [aDf, dfQ, lengthQ_cast a hnna, lengthQ_cast b hnnb, aSx_eq a b hnda hnna hnnb,
    aSy_eq a b hndb hnna hnnb, aPoolB_eq a b hnda hndb hnna hnnb]

theorem aStat_eq {R : Type} [LinearOrderedField R] (sq : R → R) (a b : QMap)
    (hnda : (keysOfQ a).Nodup) (hndb : (keysOfQ b).Nodup)
    (hnna : ∀ e ∈ a, 0 ≤ e.2) (hnnb : ∀ e ∈ b, 0 ≤ e.2) :
    aStat sq (expandQ a) (expandQ b) = statR sq a b := by
  rw [aStat, statR, aPoolA_eq a b hnna hnnb, aPoolB_eq a b hnda hndb hnna hnnb]
  have h3 : ((expandQ a).length + (expandQ b).length : ℤ) = nxQ a + nxQ b := by
    have h1 := length_expandQ a hnna
    have h2 := length_expandQ b hnnb
    push_cast
    rw [h1, h2]
  have h4 : (((expandQ a).length + (expandQ b).length : ℕ) : R) =
      ((nxQ a + nxQ b : ℤ) : R) := by
    exact_mod_cast congrArg (fun z : ℤ => (z : R)) h3
  rw [h4]

/-! ## Value-level bridges between the two engines -/

theorem filterMap_replicate_none {α β : Type} (f : α → Option β) (a : α) (h : f a = none) :
    ∀ n, List.filterMap f (List.replicate n a) = [] := by
  intro n
  induction n with
  | zero => rfl
  | succ n ih => rw [List.replicate_succ, List.filterMap_cons, h, ih]

theorem filterMap_replicate_some {α β : Type} (f : α → Option β) (a : α) (b : β)
    (h : f a = some b) : ∀ n, List.filterMap f (List.replicate n a) = List.replicate n b := by
  intro n
  induction n with
  | zero => rfl
  | succ n ih => rw [List.replicate_succ, List.filterMap_cons, h, ih, List.replicate_succ]

theorem expandCD_cons (e : Value × ℤ) (t : CountData) :
    expandCD (e :: t) = List.replicate e.2.toNat e.1 ++ expandCD t := by
  simp [expandCD]

theorem numsOf_expandCD (m : CountData) : numsOf (expandCD m) = expandQ (toQ m) := by
  induction m with
  | nil => rfl
  | cons e t ih =>
    obtain ⟨v, c⟩ := e
    rw [expandCD_cons, numsOf, List.filterMap_append]
    cases v with
    | nan =>
      rw [toQ_cons_nan,
        filterMap_replicate_none _ Value.nan rfl c.toNat]
      rw [numsOf] at ih
      rw [ih]
      rfl
    | num q =>
      rw [toQ_cons_num, expandQ_cons,
        filterMap_replicate_some _ (Value.num q) q rfl c.toNat]
      rw [numsOf] at ih
      rw [ih]

theorem anyNan_expandCD (m : CountData) (hpos : ∀ c, (Value.nan, c) ∈ m → 0 < c) :
    anyNan (expandCD m) = containsNan m := by
  induction m with
  | nil => rfl
  | cons e t ih =>
    obtain ⟨v, c⟩ := e
    rw [expandCD_cons, anyNan, List.any_append, containsNan, List.any_cons]
    have iht : anyNan (expandCD t) = containsNan t :=
      ih (fun c2 hc2 => hpos c2 (List.mem_cons_of_mem _ hc2))
    rw [anyNan] at iht
    rw [containsNan] at iht
    cases v with
    | nan =>
      have hc : 0 < c := hpos c (List.mem_cons_self _ _)
      have hrep : (List.replicate c.toNat Value.nan).any
          (fun v => decide (v = Value.nan)) = true := by
        have hct : c.toNat ≠ 0 := by omega
        cases hn : c.toNat with
        | zero => exact absurd hn hct
        | succ n => rw [List.replicate_succ]; simp
      rw [hrep]
      simp
    | num q =>
      have hrep : (List.replicate c.toNat (Value.num q)).any
          (fun v => decide (v = Value.nan)) = false := by
        rw [List.any_eq_false]
        intro u hu
        rw [List.eq_of_mem_replicate hu]
        simp
      rw [hrep, iht]
      simp

theorem toQ_omitNan (m : CountData) : toQ (omitNan m) = toQ m := by
  induction m with
  | nil => rfl
  | cons e t ih =>
    obtain ⟨v, c⟩ := e
    cases v with
    | nan =>
      have h1 : omitNan ((Value.nan, c) :: t) = omitNan t := by simp [omitNan]
      rw [h1, toQ_cons_nan, ih]
    | num q =>
      have h1 : omitNan ((Value.num q, c) :: t) = (Value.num q, c) :: omitNan t := by
        simp [omitNan]
      rw [h1, toQ_cons_num, toQ_cons_num, ih]

theorem hasNegative_eq_false (m : CountData) (h : ∀ e ∈ m, 0 ≤ e.2) :
    hasNegative m = false := by
  rw [hasNegative, List.any_eq_false]
  intro e he
  have := h e he
  simp
  omega

theorem toQ_counts_nonneg (m : CountData) (h : ∀ e ∈ m, 0 ≤ e.2) :
    ∀ e ∈ toQ m, 0 ≤ e.2 := by
  induction m with
  | nil => intro e he; cases he
  | cons e0 t ih =>
    obtain ⟨v, c⟩ := e0
    cases v with
    | nan =>
      rw [toQ_cons_nan]
      exact ih (fun e2 he2 => h e2 (List.mem_cons_of_mem _ he2))
    | num q =>
      rw [toQ_cons_num]
      intro e2 he2
      rcases List.mem_cons.mp he2 with he3 | he3
      · rw [he3]
        exact h (Value.num q, c) (List.mem_cons_self _ _)
      · exact ih (fun e4 he4 => h e4 (List.mem_cons_of_mem _ he4)) e2 he3

/-- C1 (amended): in exact arithmetic, the count-based engine agrees with the
spec-modelled array-based Brunner–Munzel procedure run on the expansions, for
every alternative / distribution string and every nan policy, provided both
maps have distinct keys and non-negative counts, every NaN key has a positive
count, and neither effective (non-NaN) sample size is exactly 1.  The two
excluded corner cases are genuine divergences of the code: a zero-count NaN
key makes the engine propagate NaN although the expansion is NaN-free, and a
sample of size one makes the engine raise `ZeroDivisionError`; both are shown
in `bm_expansion_divergence`. -/
theorem bm_matches_expansion {R : Type} [LinearOrderedField R] (sq : R → R)
    (tc : R → R → R) (nc : R → R) (x y : CountData) (alt dist pol : String)
    (hndx : (keysOf x).Nodup) (hndy : (keysOf y).Nodup)
    (hnnx : ∀ e ∈ x, 0 ≤ e.2) (hnny : ∀ e ∈ y, 0 ≤ e.2)
    (hnanx : ∀ e ∈ x, e.1 = Value.nan → 0 < e.2) (hnany : ∀ e ∈ y, e.1 = Value.nan → 0 < e.2)
    (hszx : nxQ (toQ x) ≠ 1) (hszy : nxQ (toQ y) ≠ 1) :
    bm sq tc nc x y alt dist pol =
      bmArraySpec sq tc nc (expandCD x) (expandCD y) alt dist pol := by
  have hnegx := hasNegative_eq_false x hnnx
  have hnegy := hasNegative_eq_false y hnny
  have hax := anyNan_expandCD x (fun c hc => hnanx (Value.nan, c) hc rfl)
  have hay := anyNan_expandCD y (fun c hc => hnany (Value.nan, c) hc rfl)
  rw [bm, bmArraySpec, hax, hay, if_neg (by simp [hnegx, hnegy])]
  by_cases hp : pol = "propagate" ∨ pol = "raise" ∨ pol = "omit"
  case neg => rw [if_pos hp, if_pos hp]
  case pos =>
    rw [if_neg (not_not_intro hp), if_neg (not_not_intro hp)]
    by_cases h3 : ((containsNan x || containsNan y) && decide (pol = "raise")) = true
    · rw [if_pos h3, if_pos h3]
    · rw [if_neg h3, if_neg h3]
      by_cases h4 : ((containsNan x || containsNan y) && decide (pol = "propagate")) = true
      · rw [if_pos h4, if_pos h4]
      · rw [if_neg h4, if_neg h4]
        have hx1 : toQ (if ((containsNan x || containsNan y) && decide (pol = "omit")) = true
            then omitNan x else x) = toQ x := by
          split
          · exact toQ_omitNan x
          · rfl
        have hy1 : toQ (if ((containsNan x || containsNan y) && decide (pol = "omit")) = true
            then omitNan y else y) = toQ y := by
          split
          · exact toQ_omitNan y
          · rfl
        rw [hx1, hy1, numsOf_expandCD x, numsOf_expandCD y, bmCore]
        have hnnqx := toQ_counts_nonneg x hnnx
        have hnnqy := toQ_counts_nonneg y hnny
        have hlx := length_expandQ (toQ x) hnnqx
        have hly := length_expandQ (toQ y) hnnqy
        by_cases h5 : nxQ (toQ x) = 0 ∨ nxQ (toQ y) = 0
        · rw [if_pos h5]
          have h5a : (expandQ (toQ x)).length = 0 ∨ (expandQ (toQ y)).length = 0 := by
            rcases h5 with h | h
            · exact Or.inl (by omega)
            · exact Or.inr (by omega)
          rw [if_pos h5a]
        · rw [if_neg h5]
          have h5a : ¬((expandQ (toQ x)).length = 0 ∨ (expandQ (toQ y)).length = 0) := by
            intro hcon
            rcases hcon with h | h
            · exact h5 (Or.inl (by omega))
            · exact h5 (Or.inr (by omega))
          rw [if_neg h5a, if_neg (by intro hcon; rcases hcon with h | h; exacts [hszx h, hszy h])]
          have hndqx := nodup_keysOfQ_toQ x hndx
          have hndqy := nodup_keysOfQ_toQ y hndy
          rw [aStat_eq sq (toQ x) (toQ y) hndqx hndqy hnnqx hnnqy,
            aDf_eq (toQ x) (toQ y) hndqx hndqy hnnqx hnnqy]

/-- Witness for C1 (amended) at `x = {0: 1, 1: 1}`, `y = {1: 2}` (both sizes 2). -/
theorem bm_matches_expansion_witness :
    bm (fun r : ℚ => r) (fun _ _ => (0 : ℚ)) (fun _ => (0 : ℚ))
      [(Value.num 0, 1), (Value.num 1, 1)] [(Value.num 1, 2)] "two-sided" "t" "propagate" =
      bmArraySpec (fun r : ℚ => r) (fun _ _ => (0 : ℚ)) (fun _ => (0 : ℚ))
        (expandCD [(Value.num 0, 1), (Value.num 1, 1)]) (expandCD [(Value.num 1, 2)])
        "two-sided" "t" "propagate" :=
  bm_matches_expansion _ _ _ [(Value.num 0, 1), (Value.num 1, 1)] [(Value.num 1, 2)]
    "two-sided" "t" "propagate" (by decide) (by decide) (by decide) (by decide)
    (by decide) (by decide) (by decide) (by decide)

end BMCD
